import Mathlib

/-!
Verification development for the `logicdsl` finite-domain constraint library.

The Python sources are shallowly embedded as follows.

* `Var0` models `core.Var`: a name plus an optional bound domain
  (`domain is None` until bound).
* `AExpr` / `BExpr` model the closure-built arithmetic and boolean
  expression trees of `core.py`.  Evaluation against a (possibly partial)
  assignment returns `Option`: `none` models the Python `KeyError` raised
  when an unassigned variable is read.  The evaluation order and the
  short-circuiting of `and` / `or` / `>>` mirror the Python lambdas
  exactly, because the solver's consistency check observes whether a
  `KeyError` escapes.
* Each node's `_vars` attribute (its "free set") is `varsB` / `varsA`.
  Note that `constraints.distinct` constructs its `BoolExpr` WITHOUT
  passing `vars=`, so its free set is empty; `varsB` reproduces that.
* `LogicSolver` is `Solver`; the backtracking search `_bt` is split into
  its two code paths: `btS` (`solutions is None`: best tracking, used by
  `solve`) and `btL` (`solutions` list with optional `limit`, used by
  `all_solutions`).  The failed-constraint set that `_consistent`
  mutates is computed by `btFailed`, which follows the same recursion.
* Machine floats (penalty weights) are modelled by `ℚ`; domain values by
  `ℤ` (all claims are about integer domains).
* The timeout check `time.monotonic() - start >= timeout` is modelled at
  the root invocation with an arbitrary nonnegative elapsed value; for a
  non-positive timeout the root check already fires regardless of real
  time, which is the only regime the claims touch.
-/

namespace LogicDSL

/-- Assignment: the Python `dict` mapping variable names to values, as an
association list in insertion order (first binding wins on lookup; the
search binds each variable once per path). -/
abbrev Assignment := List (String × Int)

/-- `core.Var`: a named variable whose domain is unset (`none`) until bound. -/
structure Var0 where
  name : String
  domain : Option (List Int)
deriving DecidableEq, Repr

/-- The bound domain of a registered variable (registration guarantees
`domain ≠ none`; the default is never reached through the solver API). -/
def Var0.dom (v : Var0) : List Int := v.domain.getD []

/-- Dictionary lookup `a[n]`, `none` modelling `KeyError`. -/
def lookupA : Assignment → String → Option Int
  | [], _ => none
  | (k, x) :: rest, n => if k = n then some x else lookupA rest n

/-- Comparison operators of `Expr.__eq__/__ne__/__lt__/__le__/__gt__/__ge__`. -/
inductive CmpOp
  | eq | ne | lt | le | gt | ge
deriving DecidableEq, Repr

def CmpOp.apply : CmpOp → Int → Int → Bool
  | .eq, x, y => x == y
  | .ne, x, y => x != y
  | .lt, x, y => x < y
  | .le, x, y => x ≤ y
  | .gt, x, y => x > y
  | .ge, x, y => x ≥ y

/-- Arithmetic expression trees of `core.Expr` (the node kinds the claims
exercise; literals are lifted constants, `varRef` is `Var.expr`). -/
inductive AExpr
  | const (c : Int)
  | varRef (v : Var0)
  | add (l r : AExpr)
  | sub (l r : AExpr)
  | mul (l r : AExpr)
  | neg (e : AExpr)
deriving DecidableEq, Repr

/-- Boolean expression trees of `core.BoolExpr` plus the raw nodes built by
`constraints.py`: `_fold_and([])` (`btrue`), `_fold_or([])` (`bfalse`) and
`distinct` (`distinctV`). -/
inductive BExpr
  | btrue
  | bfalse
  | cmp (op : CmpOp) (l r : AExpr)
  | and (l r : BExpr)
  | or (l r : BExpr)
  | not (e : BExpr)
  | xor (l r : BExpr)
  | imp (l r : BExpr)
  | distinctV (vs : List Var0)
deriving DecidableEq, Repr

/-- `Expr.eval`: evaluates left operand first, then right; `none` models a
`KeyError` escaping from either side. -/
def evalA : AExpr → Assignment → Option Int
  | .const c, _ => some c
  | .varRef v, a => lookupA a v.name
  | .add l r, a => match evalA l a, evalA r a with
      | some x, some y => some (x + y)
      | _, _ => none
  | .sub l r, a => match evalA l a, evalA r a with
      | some x, some y => some (x - y)
      | _, _ => none
  | .mul l r, a => match evalA l a, evalA r a with
      | some x, some y => some (x * y)
      | _, _ => none
  | .neg e, a => (evalA e a).map (fun x => -x)

/-- The reads of `distinct`'s closure: `{a[v.name] for v in vs}` reads every
listed variable (left to right), raising on the first missing one. -/
def lookVals : List Var0 → Assignment → Option (List Int)
  | [], _ => some []
  | v :: vs, a => match lookupA a v.name, lookVals vs a with
      | some x, some xs => some (x :: xs)
      | _, _ => none

/-- `BoolExpr.satisfied`: Python `and` / `or` short-circuit, so a `False`
left operand of `and` (resp. `True` of `or`) yields a definite result even
when the right operand would raise; `^` and comparisons evaluate both
sides; `s >> t` is `(not s.satisfied(a)) or t.satisfied(a)`. -/
def evalB : BExpr → Assignment → Option Bool
  | .btrue, _ => some true
  | .bfalse, _ => some false
  | .cmp op l r, a => match evalA l a, evalA r a with
      | some x, some y => some (op.apply x y)
      | _, _ => none
  | .and l r, a => match evalB l a with
      | none => none
      | some false => some false
      | some true => evalB r a
  | .or l r, a => match evalB l a with
      | none => none
      | some true => some true
      | some false => evalB r a
  | .not e, a => (evalB e a).map (fun b => !b)
  | .xor l r, a => match evalB l a, evalB r a with
      | some x, some y => some (xor x y)
      | _, _ => none
  | .imp l r, a => match evalB l a with
      | none => none
      | some false => some true
      | some true => evalB r a
  | .distinctV vs, a => (lookVals vs a).map (fun xs => xs.dedup.length == vs.length)

/-- Definite satisfaction: `satisfied(a)` returned `True` (no `KeyError`). -/
def satB (e : BExpr) (a : Assignment) : Bool := evalB e a == some true

/-- The `_vars` free-set attribute of arithmetic nodes (union of operands;
a duplicate-free list models the Python set). -/
def varsA : AExpr → List Var0
  | .const _ => []
  | .varRef v => [v]
  | .add l r => varsA l ∪ varsA r
  | .sub l r => varsA l ∪ varsA r
  | .mul l r => varsA l ∪ varsA r
  | .neg e => varsA e

/-- The `_vars` free-set attribute of boolean nodes.  `distinct` builds its
`BoolExpr` in `constraints.py` without a `vars=` argument, so its free set
is EMPTY — exactly as in the source. -/
def varsB : BExpr → List Var0
  | .btrue => []
  | .bfalse => []
  | .cmp _ l r => varsA l ∪ varsA r
  | .and l r => varsB l ∪ varsB r
  | .or l r => varsB l ∪ varsB r
  | .not e => varsB e
  | .xor l r => varsB l ∪ varsB r
  | .imp l r => varsB l ∪ varsB r
  | .distinctV _ => []

/-- Over-approximation of the variable names an arithmetic node can read. -/
def readsA : AExpr → Finset String
  | .const _ => ∅
  | .varRef v => {v.name}
  | .add l r => readsA l ∪ readsA r
  | .sub l r => readsA l ∪ readsA r
  | .mul l r => readsA l ∪ readsA r
  | .neg e => readsA e

/-- Over-approximation of the variable names a boolean node can read.
Unlike `varsB`, this covers `distinct`, whose closure reads all its
variables although its free-set attribute is empty. -/
def readsB : BExpr → Finset String
  | .btrue => ∅
  | .bfalse => ∅
  | .cmp _ l r => readsA l ∪ readsA r
  | .and l r => readsB l ∪ readsB r
  | .or l r => readsB l ∪ readsB r
  | .not e => readsB e
  | .xor l r => readsB l ∪ readsB r
  | .imp l r => readsB l ∪ readsB r
  | .distinctV vs => (vs.map Var0.name).toFinset

/-- The `name` attribute (`"<anon>"` default; the raw nodes of
`constraints.py` carry `"true"`, `"false"` and `"distinct"`). -/
def nameB : BExpr → String
  | .btrue => "true"
  | .bfalse => "false"
  | .distinctV _ => "distinct"
  | _ => "<anon>"

/-! ### Domain binding (`Var.__lshift__`, `Var.in_range`) -/

/-- `list(range(lo, hi + 1))`. -/
def rangeInts (lo hi : Int) : List Int :=
  (List.range (hi + 1 - lo).toNat).map (fun i : Nat => lo + (i : Int))

/-- The two accepted shapes of `Var.__lshift__`'s argument: a 2-tuple, or a
list/set/range.  A Python `set` arrives as its iteration sequence (already
free of duplicates); a list or range arrives verbatim. -/
inductive DomSpec
  | pair (lo hi : Int)
  | coll (vals : List Int)
deriving DecidableEq, Repr

/-- `Var.__lshift__`: a `(lo, hi)` tuple materialises `range(lo, hi+1)`;
a list/set/range is copied with `list(spec)` — NO deduplication. -/
def lshiftD (v : Var0) (sp : DomSpec) : Var0 :=
  match sp with
  | .pair lo hi => { v with domain := some (rangeInts lo hi) }
  | .coll l => { v with domain := some l }

/-- `Var.in_range(lo, hi)`: the source signature takes no step argument and
materialises `list(range(lo, hi + 1))`. -/
def inRange (v : Var0) (lo hi : Int) : Var0 :=
  { v with domain := some (rangeInts lo hi) }

/-! ### Constraint combinators (`constraints.py`) -/

/-- `_fold_and`: `BoolExpr(lambda a: True, "true")` on `[]`, else a left
fold of `&`. -/
def foldAnd : List BExpr → BExpr
  | [] => .btrue
  | x :: rest => rest.foldl .and x

/-- `_fold_or`: `BoolExpr(lambda a: False, "false")` on `[]`, else a left
fold of `|`. -/
def foldOr : List BExpr → BExpr
  | [] => .bfalse
  | x :: rest => rest.foldl .or x

/-- `at_least_one`. -/
def atLeastOne (xs : List BExpr) : BExpr := foldOr xs

/-- `itertools.combinations(xs, k)` in its enumeration order. -/
def combos {α : Type} : Nat → List α → List (List α)
  | 0, _ => [[]]
  | _ + 1, [] => []
  | k + 1, x :: xs => (combos k xs).map (fun c => x :: c) ++ combos (k + 1) xs

/-- `at_least_k(xs, k)` (`k` is a Python int, possibly negative). -/
def atLeastK (xs : List BExpr) (k : Int) : BExpr :=
  if k ≤ 0 then foldAnd []
  else if k > (xs.length : Int) then foldOr []
  else foldOr ((combos k.toNat xs).map (fun c => foldAnd c))

/-- `exactly_k(xs, k)`. -/
def exactlyK (xs : List BExpr) (k : Int) : BExpr :=
  if k < 0 ∨ k > (xs.length : Int) then foldOr []
  else if k = 0 then foldAnd (xs.map .not)
  else if k = (xs.length : Int) then foldAnd xs
  else .and (atLeastK xs k) (atLeastK (xs.map .not) ((xs.length : Int) - k))

/-! ### Solver data (`solver.py`) -/

/-- `Soft`: predicate, integer penalty, float weight, display name. -/
structure SoftC where
  bexp : BExpr
  penalty : Int
  weight : ℚ
  sname : String
deriving DecidableEq, Repr

/-- `Soft.cost`: `0 if self.bexp.satisfied(a) else self.penalty`.  (On the
complete assignments the solver scores, the predicate of any soft
constraint installed through `prefer` is determined, because `prefer`
registers the predicate's free variables.) -/
def softCost (sc : SoftC) (a : Assignment) : Int :=
  if satB sc.bexp a then 0 else sc.penalty

/-- One objective: `(expression, sense, weight)`. -/
structure Objective where
  expr : AExpr
  sense : Int
  weight : ℚ
deriving DecidableEq, Repr

/-- Objective mode, fixed at construction (`"lex"` or `"sum"`). -/
inductive OMode
  | lex
  | summ
deriving DecidableEq, Repr

/-- The configuration of a `LogicSolver` when `solve` / `all_solutions` is
invoked: registered variables in registration order, named hard
constraints, soft constraints, objectives, mode. -/
structure Solver where
  vars : List Var0
  hard : List (String × BExpr)
  soft : List SoftC
  objectives : List Objective
  mode : OMode
deriving DecidableEq, Repr

/-- The objective component of a score: a vector in lex mode, a scalar in
sum mode. -/
inductive ObjVal
  | vec (l : List Int)
  | scal (q : ℚ)
deriving DecidableEq, Repr

/-- `(penalty, objective score)` as returned by `_score`. -/
structure Score where
  pen : Int
  obj : ObjVal
deriving DecidableEq, Repr

/-- `_score(a)`. -/
def scoreOf (s : Solver) (a : Assignment) : Score :=
  let penalty : Int := (s.soft.map (fun sc => softCost sc a)).sum
  match s.mode with
  | .summ =>
      let softW : ℚ := (s.soft.map (fun sc => sc.weight * (softCost sc a : ℚ))).sum
      let objSum : ℚ :=
        (s.objectives.map (fun o => o.weight * (o.sense : ℚ) * ((evalA o.expr a).getD 0 : ℚ))).sum
      ⟨penalty, .scal (objSum - softW)⟩
  | .lex =>
      ⟨penalty, .vec (s.objectives.map (fun o => o.sense * (evalA o.expr a).getD 0))⟩

/-- Python `>` on lists of numbers (lexicographic, a strict prefix is
smaller). -/
def pyListGt : List Int → List Int → Bool
  | [], [] => false
  | [], _ :: _ => false
  | _ :: _, [] => true
  | x :: xs, y :: ys => if y < x then true else if x < y then false else pyListGt xs ys

/-- `new[1] > best[1]` — list comparison in lex mode, float comparison in
sum mode (the two modes never mix inside one solver). -/
def objGt : ObjVal → ObjVal → Bool
  | .vec x, .vec y => pyListGt x y
  | .scal x, .scal y => decide (y < x)
  | _, _ => false

/-- `_better(new, best)` against a non-empty best slot. -/
def betterS (new best : Score) : Bool :=
  if new.pen ≠ best.pen then decide (new.pen < best.pen) else objGt new.obj best.obj

/-- `_better(new, best)`: an empty best slot always loses. -/
def betterO (new : Score) (best : Option (Score × Assignment)) : Bool :=
  match best with
  | none => true
  | some (b, _) => betterS new b

/-- `_consistent`, returning also the name it records: rules are checked in
installation order; `KeyError` (`none`) counts as consistent; the FIRST
definitively false rule stops the scan and its name is recorded. -/
def consistentF (hard : List (String × BExpr)) (a : Assignment) : Bool × Option String :=
  match hard with
  | [] => (true, none)
  | (n, c) :: rest =>
      let ok := match evalB c a with
        | none => true
        | some b => b
      if ok then consistentF rest a else (false, some n)

/-- The boolean result of `_consistent`. -/
def consistentB (hard : List (String × BExpr)) (a : Assignment) : Bool :=
  (consistentF hard a).1

/-- `_bt` with `solutions is None` (the `solve` path, no timeout): at a
leaf the score is computed and replaces the best slot when strictly
better; otherwise the variable at the current index iterates its domain
in order, recursing on consistent extensions. -/
def btS (s : Solver) : List Var0 → Assignment → Option (Score × Assignment) →
    Option (Score × Assignment)
  | [], a, best =>
      if betterO (scoreOf s a) best then some (scoreOf s a, a) else best
  | v :: rest, a, best =>
      v.dom.foldl (fun b d =>
        if consistentB s.hard (a ++ [(v.name, d)]) then btS s rest (a ++ [(v.name, d)]) b
        else b) best

/-- The DFS leaf list: the complete assignments `_bt` reaches, in search
order (consistency is checked after every single-variable extension, so a
leaf under at least one variable has passed the check on its full
assignment; with NO variables the single empty leaf is never checked). -/
def btAll (hard : List (String × BExpr)) : List Var0 → Assignment → List Assignment
  | [], a => [a]
  | v :: rest, a =>
      v.dom.flatMap fun d =>
        if consistentB hard (a ++ [(v.name, d)]) then btAll hard rest (a ++ [(v.name, d)])
        else []

/-- A solution entry of `all_solutions`: copied assignment plus score. -/
abbrev Entry := Assignment × Score

/-- `len(solutions) >= limit`. -/
def limitHit (limit : Option Nat) (sols : List Entry) : Bool :=
  match limit with
  | none => false
  | some k => sols.length ≥ k

/-- `_bt` with a `solutions` list (the `all_solutions` path, no timeout):
the limit is tested on entry to every call — once reached, every deeper
call returns the list unchanged, which also renders the loop's early
`return` unobservable in the output. -/
def btL (s : Solver) (limit : Option Nat) : List Var0 → Assignment → List Entry → List Entry
  | [], a, sols =>
      if limitHit limit sols then sols else sols ++ [(a, scoreOf s a)]
  | v :: rest, a, sols =>
      if limitHit limit sols then sols
      else v.dom.foldl (fun acc d =>
        if consistentB s.hard (a ++ [(v.name, d)]) then btL s limit rest (a ++ [(v.name, d)]) acc
        else acc) sols

/-- The failed-constraint names `_consistent` records along the search (the
same recursion as `_bt` without a limit; recording happens exactly when a
consistency check fails). -/
def btFailed (hard : List (String × BExpr)) : List Var0 → Assignment → Finset String →
    Finset String
  | [], _, f => f
  | v :: rest, a, f =>
      v.dom.foldl (fun acc d =>
        match consistentF hard (a ++ [(v.name, d)]) with
        | (true, _) => btFailed hard rest (a ++ [(v.name, d)]) acc
        | (false, some n) => insert n acc
        | (false, none) => acc) f

/-- All complete assignments over the registered variables, in the DFS
order induced by registration order and domain order. -/
def enumAll : List Var0 → Assignment → List Assignment
  | [], a => [a]
  | v :: rest, a => v.dom.flatMap fun d => enumAll rest (a ++ [(v.name, d)])

/-- `b` is a complete assignment: one binding per registered variable, in
registration order, each value drawn from that variable's domain. -/
def matchesVars : List Var0 → Assignment → Bool
  | [], [] => true
  | v :: vs, (n, x) :: ext => n == v.name && v.dom.contains x && matchesVars vs ext
  | _, _ => false

/-- Every hard constraint definitively evaluates to `True`. -/
def satisfiesAll (hard : List (String × BExpr)) (a : Assignment) : Bool :=
  hard.all (fun c => satB c.2 a)

/-- `solve()` without a timeout, up to the final unsat check: the best
slot after the full search from an empty assignment. -/
def solveRun (s : Solver) : Option (Score × Assignment) := btS s s.vars [] none

inductive SolveError
  | timeout
  | noFeasible
deriving DecidableEq, Repr

/-- The outcome of `solve`: a solution, or a raised error. -/
inductive SolveRes
  | ok (r : Score × Assignment)
  | err (e : SolveError)
deriving DecidableEq, Repr

/-- `time.monotonic() - start >= timeout` at the root call of `_bt`
(`elapsed` is nonnegative; for a non-positive timeout this first check
fires regardless of real time, which is the only case the claims need —
positive timeouts depend on the wall clock and are not modelled). -/
def expired (timeout : Option ℚ) (elapsed : ℚ) : Bool :=
  match timeout with
  | none => false
  | some t => elapsed ≥ t

/-- `solve(timeout)`: `TimeoutError` propagates to the caller; an empty
best slot raises `RuntimeError("No feasible solution")`. -/
def solveT (s : Solver) (timeout : Option ℚ) (elapsed : ℚ) : SolveRes :=
  if expired timeout elapsed then .err .timeout
  else
    match solveRun s with
    | none => .err .noFeasible
    | some r => .ok r

/-- `all_solutions(limit, timeout)`: `TimeoutError` is caught and the
entries collected so far are returned (none, when the root check fires). -/
def allSolutionsT (s : Solver) (limit : Option Nat) (timeout : Option ℚ) (elapsed : ℚ) :
    List Entry :=
  if expired timeout elapsed then [] else btL s limit s.vars [] []

/-- `all_solutions` without limit or timeout. -/
def allSolutionsRun (s : Solver) : List Entry := btL s none s.vars [] []

/-- The solver-instance mutable slots that persist between invocations:
`_failed_constraints` and (`_best_score`, `_best_assignment`). -/
structure InvState where
  failed : Finset String
  best : Option (Score × Assignment)
deriving DecidableEq

/-- One `solve()` invocation (no timeout) on a solver instance: both slots
are RESET at the start (`self._best_score, self._best_assignment = None,
None` and `self._failed_constraints = set()`), so the incoming state is
ignored. -/
def doSolve (s : Solver) (_st : InvState) : SolveRes × InvState :=
  let best := btS s s.vars [] none
  let failed := btFailed s.hard s.vars [] ∅
  (match best with
    | none => .err .noFeasible
    | some r => .ok r,
   ⟨failed, best⟩)

/-- One `all_solutions(timeout)` invocation (no limit) on a solver
instance: NEITHER slot is reset — failures accumulate onto the incoming
failed set and the best slot is left untouched. -/
def doAllSolutions (s : Solver) (timeout : Option ℚ) (elapsed : ℚ) (st : InvState) :
    List Entry × InvState :=
  if expired timeout elapsed then ([], st)
  else (btL s none s.vars [] [], ⟨btFailed s.hard s.vars [] st.failed, st.best⟩)

/-- `why_unsat()`: `sorted(self._failed_constraints)`. -/
def whyUnsatL (f : Finset String) : List String := f.sort (· ≤ ·)

/-! ### Registration (`collect_vars`, `_ensure_vars`, `require`) -/

/-- Stable insertion of a variable into a name-sorted list (equal names
keep their existing order, as Python's stable `sorted` does). -/
def insertByName (v : Var0) : List Var0 → List Var0
  | [] => [v]
  | w :: ws => if w.name ≤ v.name then w :: insertByName v ws else v :: w :: ws

/-- Stable sort by variable name, modelling `sorted(set, key=name)`. -/
def sortByName (l : List Var0) : List Var0 :=
  l.foldl (fun acc v => insertByName v acc) []

/-- `collect_vars`: the expression's free set sorted by variable name. -/
def collectVars (fs : List Var0) : List Var0 :=
  sortByName fs

/-- The outcome of a registration step: the updated solver, or a raised
`ValueError` message. -/
inductive RegRes
  | ok (s : Solver)
  | err (msg : String)
deriving DecidableEq, Repr

/-- The registration loop shared by `_ensure_vars` and `add_variables`:
a variable without a bound domain raises "missing domain"; otherwise it is
appended unless a variable of the same name is already registered. -/
def registerVars : List Var0 → Solver → RegRes
  | [], s => .ok s
  | v :: vs, s =>
      match v.domain with
      | none => .err (v.name ++ " missing domain")
      | some _ =>
          registerVars vs
            (if (s.vars.map Var0.name).contains v.name then s
             else { s with vars := s.vars ++ [v] })

/-- `_ensure_vars(expr)` for a boolean expression. -/
def ensureVars (s : Solver) (e : BExpr) : RegRes :=
  registerVars (collectVars (varsB e)) s

/-- `require(bexp, name)`. -/
def requireS (s : Solver) (e : BExpr) (nm : Option String) : RegRes :=
  match ensureVars s e with
  | .err msg => .err msg
  | .ok t => .ok { t with hard := t.hard ++ [(nm.getD (nameB e), e)] }

/-! ### The Z3 backend adapter (`z3solver.py`)

`Z3Solver.solve` hands the problem to the external `z3.Optimize` engine:
domains are asserted as disjunctions over the explicit values, every hard
constraint is asserted to hold, the penalty expression is minimised first
and the objectives are then optimised in registration order — `maximize`
for sense +1, `minimize` for sense −1 — in lex mode, or as the weighted
aggregate in sum mode.  The engine itself is outside this repository; its
MODEL SELECTION is modelled by its contract (spec §4.7): the returned
model is a feasible complete assignment no feasible assignment beats under
the posed goal order, which coincides with the native comparison rule.
What the adapter then RETURNS is code of this repository (z3solver.py
lines 160-172) and is translated below as `z3ScoreOf`. -/

/-- Modelled from the spec: the contract of the external optimiser's model
selection inside `Z3Solver.solve` — a complete assignment satisfying every
hard constraint such that no other hard-satisfying complete assignment is
strictly better under the posed goals (lower penalty first, then the
declared objective comparison, whose sense-directed goals z3 optimises in
order).  This covers only which assignment the engine picks; the result
the adapter builds from it is `z3ScoreOf`. -/
def z3Optimal (s : Solver) (m : Assignment) : Prop :=
  m ∈ enumAll s.vars [] ∧ satisfiesAll s.hard m = true ∧
    ∀ b ∈ enumAll s.vars [], satisfiesAll s.hard b = true →
      betterS (scoreOf s b) (scoreOf s m) = false

instance (s : Solver) (m : Assignment) : Decidable (z3Optimal s m) := by
  unfold z3Optimal
  infer_instance

/-- The result `Z3Solver.solve` constructs from the engine's model
(z3solver.py lines 160-172): `penalty` evaluates the posed penalty
expression at the model (the summed penalties of the violated soft
constraints); in sum mode `objective` evaluates the aggregate built by
`_build_objective_expr` (weighted sense-adjusted objectives minus weighted
soft costs — the same value the native solver computes); in lex mode
`objectives` collects the RAW objective expression values,
`[model_value(expr.eval(env)) for expr, _, _ in objectives]`, WITHOUT the
sense factor the native solver applies (`Z3Solver.all_solutions`, by
contrast, does apply it).  When the objective list is empty the Python
result omits the key; the empty vector stands for that. -/
def z3ScoreOf (s : Solver) (m : Assignment) : Score :=
  let penalty : Int := (s.soft.map (fun sc => softCost sc m)).sum
  match s.mode with
  | .summ =>
      let softW : ℚ := (s.soft.map (fun sc => sc.weight * (softCost sc m : ℚ))).sum
      let objSum : ℚ :=
        (s.objectives.map (fun o => o.weight * (o.sense : ℚ) * ((evalA o.expr m).getD 0 : ℚ))).sum
      ⟨penalty, .scal (objSum - softW)⟩
  | .lex =>
      ⟨penalty, .vec (s.objectives.map (fun o => (evalA o.expr m).getD 0))⟩

/-- The leaf handling of `_bt` with `solutions is None`: replace the best
slot when the new score is strictly better. -/
def stepS (s : Solver) (best : Option (Score × Assignment)) (a : Assignment) :
    Option (Score × Assignment) :=
  if betterO (scoreOf s a) best then some (scoreOf s a, a) else best

/-- An `all_solutions` entry. -/
def entryOf (s : Solver) (b : Assignment) : Entry := (b, scoreOf s b)

/-- The registered variable names. -/
def namesOf (s : Solver) : Finset String := (s.vars.map Var0.name).toFinset

/-- Every hard constraint reads only registered variables (guaranteed by
`require` for every constraint except `distinct`, whose free set is empty
and therefore registers nothing). -/
def hardReadsOK (s : Solver) : Prop :=
  ∀ c ∈ s.hard, readsB c.2 ⊆ namesOf s

/-- Every soft-constraint predicate and objective expression reads only
registered variables, so `_score` cannot raise on a complete assignment
(guaranteed by `prefer` / `maximize` / `minimize`, whose free sets cover
their reads). -/
def scoreReadsOK (s : Solver) : Prop :=
  (∀ sc ∈ s.soft, readsB sc.bexp ⊆ namesOf s) ∧
    (∀ o ∈ s.objectives, readsA o.expr ⊆ namesOf s)

instance (s : Solver) : Decidable (hardReadsOK s) := by
  unfold hardReadsOK
  infer_instance

instance (s : Solver) : Decidable (scoreReadsOK s) := by
  unfold scoreReadsOK
  infer_instance

/-- Recording failure names one by one into the (unordered) failed set. -/
def recordFold (l : List String) : Finset String :=
  l.foldl (fun f n => insert n f) ∅

/-! ### Concrete instances used by the claims -/

/-- A 0/1 variable `x`. -/
def xCE : Var0 := ⟨"x", some [0, 1]⟩

/-- A variable `y` created by `Var("y")` whose domain was never bound. -/
def yCE : Var0 := ⟨"y", none⟩

/-- A reachable solver (`x = Var("x") << (0, 1)`; `y = Var("y")` unbound;
`require((x == 0) | distinct([y]))`; `prefer(x >= 0)`; `maximize(x)`):
`distinct` contributes no free variables, so `y` is neither
domain-checked nor registered and the hard constraint is undetermined on
assignments with `x = 1`. -/
def s1ce : Solver :=
  { vars := [xCE],
    hard := [("<anon>", .or (.cmp .eq (.varRef xCE) (.const 0)) (.distinctV [yCE]))],
    soft := [⟨.cmp .ge (.varRef xCE) (.const 0), 1, 1, "<anon>"⟩],
    objectives := [⟨.varRef xCE, 1, 1⟩],
    mode := .lex }

/-- A reachable solver with no registered variables and the constraint
`require(at_least_one([]))`, which is always false. -/
def s2ce : Solver :=
  { vars := [], hard := [("false", atLeastOne [])], soft := [], objectives := [], mode := .lex }

/-- `x = Var("x") << {0}`; `require(x == 1, "c")`: infeasible, and the
search records the failure of `"c"`. -/
def s4ce : Solver :=
  { vars := [⟨"x", some [0]⟩],
    hard := [("c", .cmp .eq (.varRef ⟨"x", some [0]⟩) (.const 1))],
    soft := [], objectives := [], mode := .lex }

def s5x : Var0 := ⟨"x", some [1, 2, 3]⟩

def s5y : Var0 := ⟨"y", some [1, 2, 3]⟩

/-- Scenario S5: `x, y ∈ [1..3]`, `require(x + y == 4)`. -/
def s5solver : Solver :=
  { vars := [s5x, s5y],
    hard := [("<anon>", .cmp .eq (.add (.varRef s5x) (.varRef s5y)) (.const 4))],
    soft := [], objectives := [], mode := .lex }

def x9 : Var0 := ⟨"x", some [1, 2]⟩

/-- `x = Var("x") << {1, 2}; S.minimize(x)` in lex mode: the problem on
which the two backends' returned lex objective vectors diverge. -/
def s9min : Solver :=
  { vars := [x9],
    hard := [],
    soft := [],
    objectives := [⟨.varRef x9, -1, 1⟩],
    mode := .lex }

/-! ## Properties of the comparison rule -/

lemma pyListGt_irrefl (l : List Int) : pyListGt l l = false := by
  induction l with
  | nil => rfl
  | cons x xs ih => simp [pyListGt, ih]

lemma pyListGt_cons_iff (x y : Int) (xs ys : List Int) :
    pyListGt (x :: xs) (y :: ys) = true ↔ y < x ∨ (x = y ∧ pyListGt xs ys = true) := by
  by_cases h1 : y < x
  · simp [pyListGt, h1]
  · by_cases h2 : x < y
    · simp only [pyListGt, if_neg h1, if_pos h2]
      constructor
      · intro h
        exact absurd h (by simp)
      · intro h
        rcases h with h | ⟨h, _⟩ <;> omega
    · have hxy : x = y := le_antisymm (not_lt.mp h1) (not_lt.mp h2)
      simp [pyListGt, h1, h2, hxy]

lemma pyListGt_trans : ∀ (a b c : List Int), pyListGt a b = true → pyListGt b c = true →
    pyListGt a c = true := by
  intro a
  induction a with
  | nil =>
      intro b c hab _
      exfalso
      cases b <;> simp [pyListGt] at hab
  | cons x xs ih =>
      intro b c hab hbc
      cases b with
      | nil =>
          exfalso
          cases c <;> simp [pyListGt] at hbc
      | cons y ys =>
          cases c with
          | nil => simp [pyListGt]
          | cons z zs =>
              rw [pyListGt_cons_iff] at hab hbc ⊢
              rcases hab with h | ⟨hxy, hrec⟩ <;> rcases hbc with h2 | ⟨hyz, hrec2⟩
              · left
                omega
              · left
                omega
              · left
                omega
              · right
                exact ⟨hxy.trans hyz, ih ys zs hrec hrec2⟩

lemma pyListGt_eq_of_not : ∀ (a b : List Int), a.length = b.length →
    pyListGt a b = false → pyListGt b a = false → a = b := by
  intro a
  induction a with
  | nil =>
      intro b hlen _ _
      cases b with
      | nil => rfl
      | cons y ys => simp at hlen
  | cons x xs ih =>
      intro b hlen h1 h2
      cases b with
      | nil => simp at hlen
      | cons y ys =>
          have h1' : ¬ (y < x ∨ (x = y ∧ pyListGt xs ys = true)) := by
            rw [← pyListGt_cons_iff]
            simp [h1]
          have h2' : ¬ (x < y ∨ (y = x ∧ pyListGt ys xs = true)) := by
            rw [← pyListGt_cons_iff]
            simp [h2]
          push_neg at h1' h2'
          have hxy : x = y := by omega
          have hxs : xs = ys := by
            refine ih ys (by simpa using hlen) ?_ ?_
            · have := h1'.2 hxy
              simpa using this
            · have := h2'.2 hxy.symm
              simpa using this
          rw [hxy, hxs]

/-- Shape compatibility of two objective scores: same mode, and in lex mode
vectors of the same length (always the case for scores of one solver). -/
def sameShape : ObjVal → ObjVal → Prop
  | .vec x, .vec y => x.length = y.length
  | .scal _, .scal _ => True
  | _, _ => False

lemma objGt_irrefl (o : ObjVal) : objGt o o = false := by
  cases o with
  | vec l => simpa [objGt] using pyListGt_irrefl l
  | scal q => simp [objGt]

lemma objGt_trans {a b c : ObjVal} (h1 : objGt a b = true) (h2 : objGt b c = true) :
    objGt a c = true := by
  cases a <;> cases b <;> cases c <;> simp [objGt] at h1 h2 ⊢
  · exact pyListGt_trans _ _ _ h1 h2
  · exact h2.trans h1

lemma objGt_eq_of_not {a b : ObjVal} (h : sameShape a b)
    (h1 : objGt a b = false) (h2 : objGt b a = false) : a = b := by
  cases a <;> cases b <;> simp [sameShape] at h <;> simp [objGt] at h1 h2
  · exact congrArg ObjVal.vec (pyListGt_eq_of_not _ _ h h1 h2)
  · exact congrArg ObjVal.scal (le_antisymm h1 h2)

lemma betterS_iff (a b : Score) :
    betterS a b = true ↔ a.pen < b.pen ∨ (a.pen = b.pen ∧ objGt a.obj b.obj = true) := by
  by_cases h : a.pen = b.pen
  · simp [betterS, h]
  · have : a.pen ≠ b.pen := h
    simp only [betterS, if_pos this]
    constructor
    · intro hlt
      left
      exact of_decide_eq_true hlt
    · intro hor
      rcases hor with hlt | ⟨heq, _⟩
      · exact decide_eq_true hlt
      · exact absurd heq h

lemma betterS_irrefl (a : Score) : betterS a a = false := by
  rw [Bool.eq_false_iff]
  intro hcon
  rw [betterS_iff] at hcon
  rcases hcon with h | ⟨_, h⟩
  · omega
  · rw [objGt_irrefl] at h
    exact Bool.false_ne_true h

lemma betterS_trans {a b c : Score} (h1 : betterS a b = true) (h2 : betterS b c = true) :
    betterS a c = true := by
  rw [betterS_iff] at h1 h2 ⊢
  rcases h1 with h1 | ⟨e1, g1⟩ <;> rcases h2 with h2 | ⟨e2, g2⟩
  · left
    omega
  · left
    omega
  · left
    omega
  · right
    exact ⟨e1.trans e2, objGt_trans g1 g2⟩

lemma score_eq_of_not_better {a b : Score} (h : sameShape a.obj b.obj)
    (h1 : betterS a b = false) (h2 : betterS b a = false) : a = b := by
  have h1' : ¬ (a.pen < b.pen ∨ (a.pen = b.pen ∧ objGt a.obj b.obj = true)) := by
    rw [← betterS_iff]
    simp [h1]
  have h2' : ¬ (b.pen < a.pen ∨ (b.pen = a.pen ∧ objGt b.obj a.obj = true)) := by
    rw [← betterS_iff]
    simp [h2]
  push_neg at h1' h2'
  have hpen : a.pen = b.pen := by omega
  have hobj : a.obj = b.obj := by
    refine objGt_eq_of_not h ?_ ?_
    · simpa using h1'.2 hpen
    · simpa using h2'.2 hpen.symm
  cases a
  cases b
  simp_all

/-! ## Evaluation against extended partial assignments

The search extends the assignment dictionary one binding at a time, never
rebinding a present key before backtracking removes it.  A definite
evaluation result (no `KeyError`) is therefore stable under appending
further bindings. -/

lemma lookupA_append_of_some {a : Assignment} {n : String} {x : Int}
    (h : lookupA a n = some x) (ext : Assignment) : lookupA (a ++ ext) n = some x := by
  induction a with
  | nil => simp [lookupA] at h
  | cons p rest ih =>
      obtain ⟨k, v⟩ := p
      by_cases hk : k = n
      · simpa [lookupA, hk] using h
      · rw [List.cons_append]
        simp only [lookupA, if_neg hk] at h ⊢
        exact ih h

lemma lookVals_append_of_some {vs : List Var0} {a : Assignment} {xs : List Int}
    (h : lookVals vs a = some xs) (ext : Assignment) : lookVals (vs) (a ++ ext) = some xs := by
  induction vs generalizing xs with
  | nil => simpa [lookVals] using h
  | cons v rest ih =>
      simp only [lookVals] at h ⊢
      cases hv : lookupA a v.name with
      | none => rw [hv] at h; exact absurd h (by simp)
      | some x =>
          cases hr : lookVals rest a with
          | none => rw [hv, hr] at h; exact absurd h (by simp)
          | some ys =>
              rw [hv, hr] at h
              rw [lookupA_append_of_some hv ext, ih hr]
              exact h

lemma evalA_append_of_some {e : AExpr} {a : Assignment} {x : Int}
    (h : evalA e a = some x) (ext : Assignment) : evalA e (a ++ ext) = some x := by
  induction e generalizing x with
  | const c => simpa [evalA] using h
  | varRef v => exact lookupA_append_of_some h ext
  | add l r ihl ihr =>
      simp only [evalA] at h ⊢
      cases hl : evalA l a <;> cases hr : evalA r a <;> rw [hl, hr] at h <;> simp at h
      rw [ihl hl, ihr hr]
      simp [h]
  | sub l r ihl ihr =>
      simp only [evalA] at h ⊢
      cases hl : evalA l a <;> cases hr : evalA r a <;> rw [hl, hr] at h <;> simp at h
      rw [ihl hl, ihr hr]
      simp [h]
  | mul l r ihl ihr =>
      simp only [evalA] at h ⊢
      cases hl : evalA l a <;> cases hr : evalA r a <;> rw [hl, hr] at h <;> simp at h
      rw [ihl hl, ihr hr]
      simp [h]
  | neg e ih =>
      simp only [evalA] at h ⊢
      cases he : evalA e a <;> rw [he] at h <;> simp at h
      rw [ih he]
      simp [h]

lemma evalB_append_of_some {e : BExpr} {a : Assignment} {b : Bool}
    (h : evalB e a = some b) (ext : Assignment) : evalB e (a ++ ext) = some b := by
  induction e generalizing b with
  | btrue => simpa [evalB] using h
  | bfalse => simpa [evalB] using h
  | cmp op l r =>
      simp only [evalB] at h ⊢
      cases hl : evalA l a <;> cases hr : evalA r a <;> rw [hl, hr] at h <;> simp at h
      rw [evalA_append_of_some hl ext, evalA_append_of_some hr ext]
      simp [h]
  | and l r ihl ihr =>
      simp only [evalB] at h ⊢
      cases hl : evalB l a <;> rw [hl] at h
      · exact absurd h (by simp)
      · rename_i bl
        cases bl
        · rw [ihl hl]
          exact h
        · rw [ihl hl]
          exact ihr h
  | or l r ihl ihr =>
      simp only [evalB] at h ⊢
      cases hl : evalB l a <;> rw [hl] at h
      · exact absurd h (by simp)
      · rename_i bl
        cases bl
        · rw [ihl hl]
          exact ihr h
        · rw [ihl hl]
          exact h
  | not e ih =>
      simp only [evalB] at h ⊢
      cases he : evalB e a <;> rw [he] at h
      · exact absurd h (by simp)
      · rw [ih he]
        exact h
  | xor l r ihl ihr =>
      simp only [evalB] at h ⊢
      cases hl : evalB l a <;> cases hr : evalB r a <;> rw [hl, hr] at h <;> simp at h
      rw [ihl hl, ihr hr]
      simp [h]
  | imp l r ihl ihr =>
      simp only [evalB] at h ⊢
      cases hl : evalB l a <;> rw [hl] at h
      · exact absurd h (by simp)
      · rename_i bl
        cases bl
        · rw [ihl hl]
          exact h
        · rw [ihl hl]
          exact ihr h
  | distinctV vs =>
      simp only [evalB] at h ⊢
      cases hv : lookVals vs a <;> rw [hv] at h
      · exact absurd h (by simp)
      · rw [lookVals_append_of_some hv ext]
        exact h

/-! ## Determined evaluation

When every name an expression can read is bound in the assignment, its
evaluation is definite (`KeyError` cannot occur). -/

lemma lookupA_isSome_of_mem {a : Assignment} {n : String}
    (h : n ∈ a.map Prod.fst) : (lookupA a n).isSome = true := by
  induction a with
  | nil => simp at h
  | cons p rest ih =>
      obtain ⟨k, v⟩ := p
      by_cases hk : k = n
      · simp [lookupA, hk]
      · simp only [List.map_cons, List.mem_cons] at h
        rcases h with h | h
        · exact absurd h.symm hk
        · simp only [lookupA, if_neg hk]
          exact ih h

lemma lookVals_isSome {vs : List Var0} {a : Assignment}
    (h : ∀ v ∈ vs, v.name ∈ a.map Prod.fst) : (lookVals vs a).isSome = true := by
  induction vs with
  | nil => simp [lookVals]
  | cons v rest ih =>
      have h1 := lookupA_isSome_of_mem (h v (by simp))
      have h2 := ih (fun w hw => h w (by simp [hw]))
      rw [Option.isSome_iff_exists] at h1 h2
      obtain ⟨x, hx⟩ := h1
      obtain ⟨xs, hxs⟩ := h2
      simp [lookVals, hx, hxs]

lemma evalA_isSome {e : AExpr} {a : Assignment}
    (h : ∀ n ∈ readsA e, n ∈ a.map Prod.fst) : (evalA e a).isSome = true := by
  induction e with
  | const c => simp [evalA]
  | varRef v =>
      exact lookupA_isSome_of_mem (h v.name (by simp [readsA]))
  | add l r ihl ihr =>
      have h1 := ihl (fun n hn => h n (by simp [readsA, hn]))
      have h2 := ihr (fun n hn => h n (by simp [readsA, hn]))
      rw [Option.isSome_iff_exists] at h1 h2
      obtain ⟨x, hx⟩ := h1
      obtain ⟨y, hy⟩ := h2
      simp [evalA, hx, hy]
  | sub l r ihl ihr =>
      have h1 := ihl (fun n hn => h n (by simp [readsA, hn]))
      have h2 := ihr (fun n hn => h n (by simp [readsA, hn]))
      rw [Option.isSome_iff_exists] at h1 h2
      obtain ⟨x, hx⟩ := h1
      obtain ⟨y, hy⟩ := h2
      simp [evalA, hx, hy]
  | mul l r ihl ihr =>
      have h1 := ihl (fun n hn => h n (by simp [readsA, hn]))
      have h2 := ihr (fun n hn => h n (by simp [readsA, hn]))
      rw [Option.isSome_iff_exists] at h1 h2
      obtain ⟨x, hx⟩ := h1
      obtain ⟨y, hy⟩ := h2
      simp [evalA, hx, hy]
  | neg e ih =>
      have h1 := ih (fun n hn => h n (by simp [readsA, hn]))
      rw [Option.isSome_iff_exists] at h1
      obtain ⟨x, hx⟩ := h1
      simp [evalA, hx]

lemma evalB_isSome {e : BExpr} {a : Assignment}
    (h : ∀ n ∈ readsB e, n ∈ a.map Prod.fst) : (evalB e a).isSome = true := by
  induction e with
  | btrue => simp [evalB]
  | bfalse => simp [evalB]
  | cmp op l r =>
      have h1 := @evalA_isSome l a (fun n hn => h n (by simp [readsB, hn]))
      have h2 := @evalA_isSome r a (fun n hn => h n (by simp [readsB, hn]))
      rw [Option.isSome_iff_exists] at h1 h2
      obtain ⟨x, hx⟩ := h1
      obtain ⟨y, hy⟩ := h2
      simp [evalB, hx, hy]
  | and l r ihl ihr =>
      have h1 := ihl (fun n hn => h n (by simp [readsB, hn]))
      have h2 := ihr (fun n hn => h n (by simp [readsB, hn]))
      rw [Option.isSome_iff_exists] at h1 h2
      obtain ⟨x, hx⟩ := h1
      obtain ⟨y, hy⟩ := h2
      cases x <;> simp [evalB, hx, hy]
  | or l r ihl ihr =>
      have h1 := ihl (fun n hn => h n (by simp [readsB, hn]))
      have h2 := ihr (fun n hn => h n (by simp [readsB, hn]))
      rw [Option.isSome_iff_exists] at h1 h2
      obtain ⟨x, hx⟩ := h1
      obtain ⟨y, hy⟩ := h2
      cases x <;> simp [evalB, hx, hy]
  | not e ih =>
      have h1 := ih (fun n hn => h n (by simp [readsB, hn]))
      rw [Option.isSome_iff_exists] at h1
      obtain ⟨x, hx⟩ := h1
      simp [evalB, hx]
  | xor l r ihl ihr =>
      have h1 := ihl (fun n hn => h n (by simp [readsB, hn]))
      have h2 := ihr (fun n hn => h n (by simp [readsB, hn]))
      rw [Option.isSome_iff_exists] at h1 h2
      obtain ⟨x, hx⟩ := h1
      obtain ⟨y, hy⟩ := h2
      simp [evalB, hx, hy]
  | imp l r ihl ihr =>
      have h1 := ihl (fun n hn => h n (by simp [readsB, hn]))
      have h2 := ihr (fun n hn => h n (by simp [readsB, hn]))
      rw [Option.isSome_iff_exists] at h1 h2
      obtain ⟨x, hx⟩ := h1
      obtain ⟨y, hy⟩ := h2
      cases x <;> simp [evalB, hx, hy]
  | distinctV vs =>
      have h1 := @lookVals_isSome vs a
        (fun v hv => h v.name (by simp [readsB]; exact ⟨v, hv, rfl⟩))
      rw [Option.isSome_iff_exists] at h1
      obtain ⟨xs, hxs⟩ := h1
      simp [evalB, hxs]

/-! ## The consistency check -/

lemma consistentB_cons (n : String) (c : BExpr) (rest : List (String × BExpr)) (a : Assignment) :
    consistentB ((n, c) :: rest) a =
      if evalB c a = some false then false else consistentB rest a := by
  simp only [consistentB, consistentF]
  cases hv : evalB c a with
  | none => simp
  | some b => cases b <;> simp

lemma consistentB_iff (hard : List (String × BExpr)) (a : Assignment) :
    consistentB hard a = true ↔ ∀ c ∈ hard, evalB c.2 a ≠ some false := by
  induction hard with
  | nil => simp [consistentB, consistentF]
  | cons p rest ih =>
      obtain ⟨n, c⟩ := p
      rw [consistentB_cons]
      by_cases hv : evalB c a = some false
      · simp [hv]
      · simp only [if_neg hv, ih, List.mem_cons]
        constructor
        · rintro h d (rfl | hd)
          · exact hv
          · exact h d hd
        · intro h d hd
          exact h d (Or.inr hd)

lemma satisfiesAll_iff (hard : List (String × BExpr)) (a : Assignment) :
    satisfiesAll hard a = true ↔ ∀ c ∈ hard, evalB c.2 a = some true := by
  simp [satisfiesAll, satB, List.all_eq_true]

lemma consistentB_of_satisfiesAll {hard : List (String × BExpr)} {a : Assignment}
    (h : satisfiesAll hard a = true) : consistentB hard a = true := by
  rw [satisfiesAll_iff] at h
  rw [consistentB_iff]
  intro c hc
  rw [h c hc]
  simp

lemma consistentB_append_false {hard : List (String × BExpr)} {a : Assignment}
    (h : consistentB hard a = false) (ext : Assignment) :
    consistentB hard (a ++ ext) = false := by
  have h2 : ¬ ∀ c ∈ hard, evalB c.2 a ≠ some false := by
    rw [← consistentB_iff]
    simp [h]
  push_neg at h2
  obtain ⟨c, hc, hfalse⟩ := h2
  rw [Bool.eq_false_iff]
  intro hcon
  rw [consistentB_iff] at hcon
  exact hcon c hc (evalB_append_of_some hfalse ext)

/-! ## The leaf enumeration -/

lemma mem_enumAll : ∀ (vars : List Var0) (a b : Assignment),
    b ∈ enumAll vars a ↔ ∃ ext, b = a ++ ext ∧ matchesVars vars ext = true := by
  intro vars
  induction vars with
  | nil =>
      intro a b
      simp only [enumAll, List.mem_singleton]
      constructor
      · intro h
        refine ⟨[], ?_, ?_⟩
        · simp [h]
        · rfl
      · rintro ⟨ext, hb, hm⟩
        cases ext with
        | nil => simp [hb]
        | cons p e2 =>
            obtain ⟨n, x⟩ := p
            simp [matchesVars] at hm
  | cons v rest ih =>
      intro a b
      simp only [enumAll, List.mem_flatMap]
      constructor
      · rintro ⟨d, hd, hb⟩
        rw [ih] at hb
        obtain ⟨ext, rfl, hm⟩ := hb
        refine ⟨(v.name, d) :: ext, by simp, ?_⟩
        have hc : v.dom.contains d = true := List.elem_iff.mpr hd
        simp [matchesVars, hm, hc, hd]
      · rintro ⟨ext, rfl, hm⟩
        cases ext with
        | nil => simp [matchesVars] at hm
        | cons p e2 =>
            obtain ⟨n, x⟩ := p
            simp only [matchesVars, Bool.and_eq_true, beq_iff_eq] at hm
            obtain ⟨⟨hn, hx⟩, hm2⟩ := hm
            subst hn
            refine ⟨x, List.elem_iff.mp hx, ?_⟩
            rw [ih]
            exact ⟨e2, by simp, hm2⟩

lemma matchesVars_iff_mem (vars : List Var0) (b : Assignment) :
    matchesVars vars b = true ↔ b ∈ enumAll vars [] := by
  rw [mem_enumAll]
  simp

/-- With a consistent starting prefix, the search visits exactly the
complete extensions on which no hard constraint is definitively false:
a prefix pruned by the check stays false on every extension, and the check
runs one final time once the last variable is bound. -/
lemma btAll_eq_filter (hard : List (String × BExpr)) :
    ∀ (vars : List Var0) (a : Assignment), consistentB hard a = true →
      btAll hard vars a = (enumAll vars a).filter (fun b => consistentB hard b) := by
  intro vars
  induction vars with
  | nil =>
      intro a ha
      simp [btAll, enumAll, List.filter, ha]
  | cons v rest ih =>
      intro a _
      simp only [btAll, enumAll]
      rw [List.filter_flatMap]
      congr 1
      funext d
      by_cases hc : consistentB hard (a ++ [(v.name, d)])
      · rw [if_pos hc, ih _ hc]
      · rw [if_neg hc]
        symm
        rw [List.filter_eq_nil_iff]
        intro b hb
        rw [mem_enumAll] at hb
        obtain ⟨ext, rfl, _⟩ := hb
        have hfc := consistentB_append_false (Bool.not_eq_true _ ▸ hc : _) ext
        simpa using hfc

/-! ## The best-slot update as a fold over the leaf list -/

lemma btS_eq_foldl (s : Solver) : ∀ (vars : List Var0) (a : Assignment)
    (best : Option (Score × Assignment)),
    btS s vars a best = (btAll s.hard vars a).foldl (stepS s) best := by
  intro vars
  induction vars with
  | nil =>
      intro a best
      rfl
  | cons v rest ih =>
      intro a best
      simp only [btS, btAll]
      generalize v.dom = ds
      induction ds generalizing best with
      | nil => rfl
      | cons d ds ihd =>
          simp only [List.foldl_cons, List.flatMap_cons, List.foldl_append]
          have hstep :
              (if consistentB s.hard (a ++ [(v.name, d)]) then
                  btS s rest (a ++ [(v.name, d)]) best
                else best) =
              List.foldl (stepS s) best
                (if consistentB s.hard (a ++ [(v.name, d)]) then
                    btAll s.hard rest (a ++ [(v.name, d)])
                  else []) := by
            by_cases hc : consistentB s.hard (a ++ [(v.name, d)])
            · simp only [if_pos hc]
              exact ih _ best
            · simp only [if_neg hc, List.foldl_nil]
          rw [hstep]
          exact ihd _

lemma btL_none_eq (s : Solver) : ∀ (vars : List Var0) (a : Assignment) (sols : List Entry),
    btL s none vars a sols = sols ++ (btAll s.hard vars a).map (entryOf s) := by
  intro vars
  induction vars with
  | nil =>
      intro a sols
      rfl
  | cons v rest ih =>
      intro a sols
      simp only [btL, btAll, limitHit]
      rw [if_neg (by simp : ¬ false = true)]
      generalize v.dom = ds
      induction ds generalizing sols with
      | nil => simp
      | cons d ds ihd =>
          simp only [List.foldl_cons, List.flatMap_cons, List.map_append, ← List.append_assoc]
          have hstep :
              (if consistentB s.hard (a ++ [(v.name, d)]) then
                  btL s none rest (a ++ [(v.name, d)]) sols
                else sols) =
              sols ++
                (if consistentB s.hard (a ++ [(v.name, d)]) then
                    btAll s.hard rest (a ++ [(v.name, d)])
                  else []).map (entryOf s) := by
            by_cases hc : consistentB s.hard (a ++ [(v.name, d)])
            · simp only [if_pos hc]
              exact ih _ sols
            · simp only [if_neg hc, List.map_nil, List.append_nil]
          rw [hstep]
          rw [ihd]

lemma foldl_stepS_shape (s : Solver) : ∀ (l : List Assignment) (sc : Score) (a0 : Assignment),
    ∃ sc2 a2, l.foldl (stepS s) (some (sc, a0)) = some (sc2, a2) ∧
      ((sc2 = sc ∧ a2 = a0) ∨ (a2 ∈ l ∧ sc2 = scoreOf s a2 ∧ betterS sc2 sc = true)) := by
  intro l
  induction l with
  | nil =>
      intro sc a0
      exact ⟨sc, a0, rfl, Or.inl ⟨rfl, rfl⟩⟩
  | cons x xs ih =>
      intro sc a0
      simp only [List.foldl_cons]
      by_cases hx : betterS (scoreOf s x) sc = true
      · have hstep : stepS s (some (sc, a0)) x = some (scoreOf s x, x) := by
          simp [stepS, betterO, hx]
        rw [hstep]
        obtain ⟨sc2, a2, heq, hcase⟩ := ih (scoreOf s x) x
        refine ⟨sc2, a2, heq, Or.inr ?_⟩
        rcases hcase with ⟨h1, h2⟩ | ⟨h1, h2, h3⟩
        · subst h2
          exact ⟨by simp, h1, h1 ▸ hx⟩
        · exact ⟨by simp [h1], h2, betterS_trans h3 hx⟩
      · have hstep : stepS s (some (sc, a0)) x = some (sc, a0) := by
          simp [stepS, betterO, hx]
        rw [hstep]
        obtain ⟨sc2, a2, heq, hcase⟩ := ih sc a0
        refine ⟨sc2, a2, heq, ?_⟩
        rcases hcase with h | ⟨h1, h2, h3⟩
        · exact Or.inl h
        · exact Or.inr ⟨by simp [h1], h2, h3⟩

lemma foldl_stepS_dominates (s : Solver) : ∀ (l : List Assignment) (sc : Score)
    (a0 : Assignment) (sc2 : Score) (a2 : Assignment),
    l.foldl (stepS s) (some (sc, a0)) = some (sc2, a2) →
    ∀ x ∈ l, betterS (scoreOf s x) sc2 = false := by
  intro l
  induction l with
  | nil =>
      intro sc a0 sc2 a2 _ x hx
      simp at hx
  | cons y ys ih =>
      intro sc a0 sc2 a2 h x hx
      simp only [List.foldl_cons] at h
      rcases List.mem_cons.mp hx with rfl | hx2
      · by_cases hy : betterS (scoreOf s x) sc = true
        · have hstep : stepS s (some (sc, a0)) x = some (scoreOf s x, x) := by
            simp [stepS, betterO, hy]
          rw [hstep] at h
          obtain ⟨sc3, a3, heq, hcase⟩ := foldl_stepS_shape s ys (scoreOf s x) x
          rw [heq] at h
          obtain ⟨hsc, _⟩ := Prod.mk.injEq .. ▸ Option.some.inj h
          subst hsc
          rcases hcase with ⟨h1, _⟩ | ⟨_, _, h3⟩
          · rw [h1]
            exact betterS_irrefl _
          · rw [Bool.eq_false_iff]
            intro hcon
            have := betterS_trans hcon h3
            rw [betterS_irrefl] at this
            exact Bool.false_ne_true this
        · have hstep : stepS s (some (sc, a0)) x = some (sc, a0) := by
            simp [stepS, betterO, hy]
          rw [hstep] at h
          obtain ⟨sc3, a3, heq, hcase⟩ := foldl_stepS_shape s ys sc a0
          rw [heq] at h
          obtain ⟨hsc, _⟩ := Prod.mk.injEq .. ▸ Option.some.inj h
          subst hsc
          rw [Bool.eq_false_iff]
          intro hcon
          rcases hcase with ⟨h1, _⟩ | ⟨_, _, h3⟩
          · exact hy (h1 ▸ hcon)
          · exact hy (betterS_trans hcon h3)
      · by_cases hy : betterS (scoreOf s y) sc = true
        · have hstep : stepS s (some (sc, a0)) y = some (scoreOf s y, y) := by
            simp [stepS, betterO, hy]
          rw [hstep] at h
          exact ih _ _ _ _ h x hx2
        · have hstep : stepS s (some (sc, a0)) y = some (sc, a0) := by
            simp [stepS, betterO, hy]
          rw [hstep] at h
          exact ih _ _ _ _ h x hx2

/-- The full `solve`-search engine lemma: when the leaf list is nonempty,
the final best slot holds a visited leaf together with its score, and no
visited leaf is strictly better. -/
lemma foldl_stepS_spec (s : Solver) (l : List Assignment) (hne : l ≠ []) :
    ∃ sc2 a2, l.foldl (stepS s) none = some (sc2, a2) ∧ a2 ∈ l ∧ sc2 = scoreOf s a2 ∧
      ∀ x ∈ l, betterS (scoreOf s x) sc2 = false := by
  cases l with
  | nil => exact absurd rfl hne
  | cons h t =>
      have hstep : stepS s none h = some (scoreOf s h, h) := by
        simp [stepS, betterO]
      simp only [List.foldl_cons, hstep]
      obtain ⟨sc2, a2, heq, hcase⟩ := foldl_stepS_shape s t (scoreOf s h) h
      have hdom := foldl_stepS_dominates s t (scoreOf s h) h sc2 a2 heq
      refine ⟨sc2, a2, heq, ?_, ?_, ?_⟩
      · rcases hcase with ⟨_, h2⟩ | ⟨h1, _, _⟩
        · simp [h2]
        · simp [h1]
      · rcases hcase with ⟨h1, h2⟩ | ⟨_, h2, _⟩
        · rw [h1, h2]
        · exact h2
      · intro x hx
        rcases List.mem_cons.mp hx with rfl | hx2
        · rcases hcase with ⟨h1, _⟩ | ⟨_, _, h3⟩
          · rw [h1]
            exact betterS_irrefl _
          · rw [Bool.eq_false_iff]
            intro hcon
            have := betterS_trans hcon h3
            rw [betterS_irrefl] at this
            exact Bool.false_ne_true this
        · exact hdom x hx2

/-! ## The solve engine -/

/-- When some complete assignment passes the final consistency check, the
search fills the best slot with a complete assignment that passes it, is
scored, and is not beaten by any complete assignment passing the check. -/
lemma solveRun_spec (s : Solver)
    (hfeas : ∃ b, matchesVars s.vars b = true ∧ consistentB s.hard b = true) :
    ∃ a sc, solveRun s = some (sc, a) ∧ matchesVars s.vars a = true ∧
      consistentB s.hard a = true ∧ sc = scoreOf s a ∧
      ∀ b, matchesVars s.vars b = true → consistentB s.hard b = true →
        betterS (scoreOf s b) sc = false := by
  obtain ⟨b0, hm0, hc0⟩ := hfeas
  have hroot : consistentB s.hard [] = true := by
    by_contra hcon
    have hf : consistentB s.hard [] = false := Bool.not_eq_true _ ▸ hcon
    have hfe := consistentB_append_false hf b0
    rw [List.nil_append] at hfe
    simp [hfe] at hc0
  have hleaves := btAll_eq_filter s.hard s.vars [] hroot
  have hb0mem : b0 ∈ (enumAll s.vars []).filter (fun b => consistentB s.hard b) := by
    rw [List.mem_filter]
    exact ⟨(matchesVars_iff_mem _ _).mp hm0, hc0⟩
  have hne : btAll s.hard s.vars [] ≠ [] := by
    rw [hleaves]
    intro hnil
    rw [hnil] at hb0mem
    simp at hb0mem
  obtain ⟨sc2, a2, heq, hmem, hsc, hdom⟩ := foldl_stepS_spec s (btAll s.hard s.vars []) hne
  have hrun : solveRun s = some (sc2, a2) := by
    rw [solveRun, btS_eq_foldl]
    exact heq
  rw [hleaves, List.mem_filter] at hmem
  refine ⟨a2, sc2, hrun, (matchesVars_iff_mem _ _).mpr hmem.1, hmem.2, hsc, ?_⟩
  intro b hmb hcb
  apply hdom
  rw [hleaves, List.mem_filter]
  exact ⟨(matchesVars_iff_mem _ _).mp hmb, hcb⟩

/-! ## Complete assignments are determined -/

lemma matchesVars_keys : ∀ (vars : List Var0) (b : Assignment),
    matchesVars vars b = true → b.map Prod.fst = vars.map Var0.name := by
  intro vars
  induction vars with
  | nil =>
      intro b h
      cases b with
      | nil => rfl
      | cons p rest => simp [matchesVars] at h
  | cons v rest ih =>
      intro b h
      cases b with
      | nil => simp [matchesVars] at h
      | cons p ext =>
          obtain ⟨n, x⟩ := p
          simp only [matchesVars, Bool.and_eq_true, beq_iff_eq] at h
          obtain ⟨⟨hn, _⟩, hm⟩ := h
          simp [hn, ih ext hm]

/-- On a complete assignment, a constraint whose reads are all registered
evaluates definitely; together with passing the consistency check this
means it is definitively true. -/
lemma satisfied_of_consistent {s : Solver} {c : String × BExpr} {b : Assignment}
    (hc : c ∈ s.hard) (hreads : hardReadsOK s) (hm : matchesVars s.vars b = true)
    (hcons : consistentB s.hard b = true) : evalB c.2 b = some true := by
  have hkeys := matchesVars_keys s.vars b hm
  have hin : ∀ n ∈ readsB c.2, n ∈ b.map Prod.fst := by
    intro n hn
    rw [hkeys]
    have := hreads c hc hn
    simpa [namesOf] using this
  have hsome := evalB_isSome hin
  rw [Option.isSome_iff_exists] at hsome
  obtain ⟨v, hv⟩ := hsome
  cases v with
  | true => exact hv
  | false =>
      rw [consistentB_iff] at hcons
      exact absurd hv (hcons c hc)

lemma satisfiesAll_of_consistent {s : Solver} {b : Assignment}
    (hreads : hardReadsOK s) (hm : matchesVars s.vars b = true)
    (hcons : consistentB s.hard b = true) : satisfiesAll s.hard b = true := by
  rw [satisfiesAll_iff]
  intro c hc
  exact satisfied_of_consistent hc hreads hm hcons

/-- Two scores produced by one solver have compatible shapes. -/
lemma scoreOf_sameShape (s : Solver) (a b : Assignment) :
    sameShape (scoreOf s a).obj (scoreOf s b).obj := by
  cases hm : s.mode <;> simp [scoreOf, hm, sameShape]

/-! ## Uniqueness of the enumeration -/

lemma enumAll_nodup (vars : List Var0) (hdom : ∀ v ∈ vars, v.dom.Nodup) :
    ∀ a, (enumAll vars a).Nodup := by
  induction vars with
  | nil =>
      intro a
      simp [enumAll]
  | cons v rest ih =>
      intro a
      simp only [enumAll]
      rw [List.nodup_flatMap]
      constructor
      · intro d _
        exact ih (fun w hw => hdom w (by simp [hw])) _
      · have hv : v.dom.Nodup := hdom v (by simp)
        refine hv.imp ?_
        intro d1 d2 hne
        intro b hb1 hb2
        rw [mem_enumAll] at hb1 hb2
        obtain ⟨e1, he1, _⟩ := hb1
        obtain ⟨e2, he2, _⟩ := hb2
        rw [he2] at he1
        obtain ⟨hd, _⟩ : d2 = d1 ∧ e2 = e1 := by simpa using he1
        exact hne hd.symm

/-! ## Failure recording -/

lemma foldl_superset {α β : Type} [DecidableEq β] (step : Finset β → α → Finset β)
    (hmono : ∀ acc d, acc ⊆ step acc d) :
    ∀ (l : List α) (acc : Finset β), acc ⊆ l.foldl step acc := by
  intro l
  induction l with
  | nil =>
      intro acc
      exact Finset.Subset.refl acc
  | cons d ds ih =>
      intro acc
      exact (hmono acc d).trans (ih (step acc d))

lemma btFailed_mono (hard : List (String × BExpr)) :
    ∀ (vars : List Var0) (a : Assignment) (f : Finset String),
      f ⊆ btFailed hard vars a f := by
  intro vars
  induction vars with
  | nil =>
      intro a f
      exact Finset.Subset.refl f
  | cons v rest ih =>
      intro a f
      simp only [btFailed]
      apply foldl_superset
      intro acc d
      cases hc : consistentF hard (a ++ [(v.name, d)]) with
      | mk ok o =>
          cases ok
          · cases o with
            | none => exact Finset.Subset.refl acc
            | some n => exact Finset.subset_insert n acc
          · exact ih _ acc

lemma mem_recordFold (x : String) : ∀ (l : List String), x ∈ recordFold l ↔ x ∈ l := by
  have aux : ∀ (l : List String) (f : Finset String),
      x ∈ l.foldl (fun f n => insert n f) f ↔ x ∈ f ∨ x ∈ l := by
    intro l
    induction l with
    | nil =>
        intro f
        simp
    | cons n ns ih =>
        intro f
        rw [List.foldl_cons, ih]
        simp [Finset.mem_insert]
        tauto
  intro l
  rw [recordFold, aux]
  simp

lemma recordFold_perm {l1 l2 : List String} (h : l1.Perm l2) :
    recordFold l1 = recordFold l2 := by
  apply Finset.ext
  intro x
  rw [mem_recordFold, mem_recordFold]
  exact ⟨fun hx => h.mem_iff.mp hx, fun hx => h.mem_iff.mpr hx⟩

/-! ## Cardinality combinators -/

lemma satB_of_eval {e : BExpr} {a : Assignment} {b : Bool}
    (h : evalB e a = some b) : satB e a = b := by
  cases b <;> simp [satB, h]

lemma satB_and (l r : BExpr) (a : Assignment) :
    satB (.and l r) a = (satB l a && satB r a) := by
  simp only [satB, evalB]
  cases hl : evalB l a with
  | none => simp
  | some b => cases b <;> simp

lemma satB_not_of_det {e : BExpr} {a : Assignment}
    (hdet : (evalB e a).isSome = true) : satB (.not e) a = !(satB e a) := by
  obtain ⟨b, hb⟩ := Option.isSome_iff_exists.mp hdet
  cases b <;> simp [satB, evalB, hb]

lemma map_not_det {xs : List BExpr} {a : Assignment}
    (hdet : ∀ x ∈ xs, (evalB x a).isSome = true) :
    ∀ x ∈ xs.map .not, (evalB x a).isSome = true := by
  intro x hx
  obtain ⟨y, hy, rfl⟩ := List.mem_map.mp hx
  obtain ⟨b, hb⟩ := Option.isSome_iff_exists.mp (hdet y hy)
  simp [evalB, hb]

lemma foldl_and_eval : ∀ (rest : List BExpr) (acc : BExpr) (a : Assignment),
    (evalB acc a).isSome = true → (∀ x ∈ rest, (evalB x a).isSome = true) →
    evalB (rest.foldl .and acc) a = some (satB acc a && rest.all (fun x => satB x a)) := by
  intro rest
  induction rest with
  | nil =>
      intro acc a hacc _
      obtain ⟨b, hb⟩ := Option.isSome_iff_exists.mp hacc
      cases b <;> simp [hb, satB]
  | cons y ys ih =>
      intro acc a hacc hdet
      obtain ⟨b, hb⟩ := Option.isSome_iff_exists.mp hacc
      obtain ⟨c, hc⟩ := Option.isSome_iff_exists.mp (hdet y (by simp))
      have hand : (evalB (.and acc y) a).isSome = true := by
        cases b <;> simp [evalB, hb, hc]
      rw [List.foldl_cons, ih (.and acc y) a hand (fun x hx => hdet x (by simp [hx]))]
      rw [satB_and]
      simp [List.all_cons, Bool.and_assoc]

lemma foldAnd_eval (l : List BExpr) (a : Assignment)
    (hdet : ∀ x ∈ l, (evalB x a).isSome = true) :
    evalB (foldAnd l) a = some (l.all (fun x => satB x a)) := by
  cases l with
  | nil => simp [foldAnd, evalB]
  | cons x rest =>
      rw [foldAnd, foldl_and_eval rest x a (hdet x (by simp))
        (fun y hy => hdet y (by simp [hy]))]
      simp [List.all_cons]

lemma satB_or (l r : BExpr) (a : Assignment) :
    satB (.or l r) a = (satB l a || (evalB l a == some false && satB r a)) := by
  simp only [satB, evalB]
  cases hl : evalB l a with
  | none => simp
  | some b => cases b <;> simp

lemma foldl_or_eval : ∀ (rest : List BExpr) (acc : BExpr) (a : Assignment),
    (evalB acc a).isSome = true → (∀ x ∈ rest, (evalB x a).isSome = true) →
    evalB (rest.foldl .or acc) a = some (satB acc a || rest.any (fun x => satB x a)) := by
  intro rest
  induction rest with
  | nil =>
      intro acc a hacc _
      obtain ⟨b, hb⟩ := Option.isSome_iff_exists.mp hacc
      cases b <;> simp [hb, satB]
  | cons y ys ih =>
      intro acc a hacc hdet
      obtain ⟨b, hb⟩ := Option.isSome_iff_exists.mp hacc
      obtain ⟨c, hc⟩ := Option.isSome_iff_exists.mp (hdet y (by simp))
      have hor : (evalB (.or acc y) a).isSome = true := by
        cases b <;> simp [evalB, hb, hc]
      rw [List.foldl_cons, ih (.or acc y) a hor (fun x hx => hdet x (by simp [hx]))]
      have hsor : satB (.or acc y) a = (satB acc a || satB y a) := by
        cases b <;> simp [satB, evalB, hb]
      rw [hsor]
      simp [List.any_cons, Bool.or_assoc]

lemma foldOr_eval (l : List BExpr) (a : Assignment)
    (hdet : ∀ x ∈ l, (evalB x a).isSome = true) :
    evalB (foldOr l) a = some (l.any (fun x => satB x a)) := by
  cases l with
  | nil => simp [foldOr, evalB]
  | cons x rest =>
      rw [foldOr, foldl_or_eval rest x a (hdet x (by simp))
        (fun y hy => hdet y (by simp [hy]))]
      simp [List.any_cons]

lemma combos_mem_subset {α : Type} : ∀ (xs : List α) (k : Nat) (c : List α),
    c ∈ combos k xs → ∀ y ∈ c, y ∈ xs := by
  intro xs
  induction xs with
  | nil =>
      intro k c hc y hy
      cases k with
      | zero =>
          simp only [combos, List.mem_singleton] at hc
          subst hc
          simp at hy
      | succ k => simp [combos] at hc
  | cons x rest ih =>
      intro k c hc y hy
      cases k with
      | zero =>
          simp only [combos, List.mem_singleton] at hc
          subst hc
          simp at hy
      | succ k =>
          simp only [combos, List.mem_append, List.mem_map] at hc
          rcases hc with ⟨c2, hc2, rfl⟩ | hc2
          · rcases List.mem_cons.mp hy with rfl | hy2
            · simp
            · exact List.mem_cons_of_mem x (ih k c2 hc2 y hy2)
          · exact List.mem_cons_of_mem x (ih (k + 1) c hc2 y hy)

lemma combos_exists_iff (a : Assignment) : ∀ (xs : List BExpr) (k : Nat),
    (∃ c ∈ combos k xs, c.all (fun e => satB e a) = true) ↔
      k ≤ xs.countP (fun e => satB e a) := by
  intro xs
  induction xs with
  | nil =>
      intro k
      cases k with
      | zero => simp [combos]
      | succ k => simp [combos]
  | cons x rest ih =>
      intro k
      cases k with
      | zero => simp [combos]
      | succ k =>
          simp only [combos, List.mem_append, List.mem_map]
          rw [List.countP_cons]
          by_cases hx : satB x a = true
          · constructor
            · rintro ⟨c, ⟨c2, hc2, rfl⟩ | hc2, hall⟩
              · rw [List.all_cons, hx, Bool.true_and] at hall
                have := (ih k).mp ⟨c2, hc2, hall⟩
                simp only [hx, if_pos]
                omega
              · have := (ih (k + 1)).mp ⟨c, hc2, hall⟩
                simp only [hx, if_pos]
                omega
            · intro hcount
              have hk2 : k ≤ rest.countP (fun e => satB e a) := by
                simp only [hx, if_pos] at hcount
                omega
              obtain ⟨c2, hc2, hall⟩ := (ih k).mpr hk2
              refine ⟨x :: c2, Or.inl ⟨c2, hc2, rfl⟩, ?_⟩
              rw [List.all_cons, hx, Bool.true_and]
              exact hall
          · have hx2 : satB x a = false := Bool.eq_false_iff.mpr hx
            constructor
            · rintro ⟨c, ⟨c2, _, rfl⟩ | hc2, hall⟩
              · rw [List.all_cons, hx2] at hall
                simp at hall
              · have := (ih (k + 1)).mp ⟨c, hc2, hall⟩
                simp only [hx2, Bool.false_eq_true, if_false]
                omega
            · intro hcount
              have hk2 : k + 1 ≤ rest.countP (fun e => satB e a) := by
                simp only [hx2, Bool.false_eq_true, if_false] at hcount
                omega
              obtain ⟨c, hc2, hall⟩ := (ih (k + 1)).mpr hk2
              exact ⟨c, Or.inr hc2, hall⟩

lemma atLeastK_true_iff (xs : List BExpr) (k : Int) (a : Assignment)
    (hdet : ∀ x ∈ xs, (evalB x a).isSome = true) :
    satB (atLeastK xs k) a = true ↔ k ≤ (xs.countP (fun e => satB e a) : Int) := by
  unfold atLeastK
  by_cases h1 : k ≤ 0
  · rw [if_pos h1]
    have hs : satB (foldAnd []) a = true := rfl
    rw [hs]
    constructor
    · intro _
      omega
    · intro _
      rfl
  · rw [if_neg h1]
    by_cases h2 : k > (xs.length : Int)
    · rw [if_pos h2]
      have hs : satB (foldOr []) a = false := rfl
      rw [hs]
      have hc : xs.countP (fun e => satB e a) ≤ xs.length := List.countP_le_length _
      constructor
      · intro hcon
        exact absurd hcon (by simp)
      · intro hle
        exfalso
        omega
    · rw [if_neg h2]
      have hcl : ∀ e ∈ (combos k.toNat xs).map (fun c => foldAnd c),
          (evalB e a).isSome = true := by
        intro e he
        obtain ⟨c, hc, rfl⟩ := List.mem_map.mp he
        rw [foldAnd_eval c a (fun y hy => hdet y (combos_mem_subset xs k.toNat c hc y hy))]
        simp
      rw [satB_of_eval (foldOr_eval _ a hcl)]
      rw [List.any_eq_true]
      constructor
      · rintro ⟨e, he, hse⟩
        obtain ⟨c, hc, rfl⟩ := List.mem_map.mp he
        rw [satB_of_eval (foldAnd_eval c a
          (fun y hy => hdet y (combos_mem_subset xs k.toNat c hc y hy)))] at hse
        have := (combos_exists_iff a xs k.toNat).mp ⟨c, hc, hse⟩
        omega
      · intro hle
        have hk : k.toNat ≤ xs.countP (fun e => satB e a) := by omega
        obtain ⟨c, hc, hall⟩ := (combos_exists_iff a xs k.toNat).mpr hk
        refine ⟨foldAnd c, List.mem_map_of_mem _ hc, ?_⟩
        rw [satB_of_eval (foldAnd_eval c a
          (fun y hy => hdet y (combos_mem_subset xs k.toNat c hc y hy)))]
        exact hall

lemma countP_map_not_add : ∀ (xs : List BExpr) (a : Assignment),
    (∀ x ∈ xs, (evalB x a).isSome = true) →
    (xs.map BExpr.not).countP (fun e => satB e a) + xs.countP (fun e => satB e a) =
      xs.length := by
  intro xs
  induction xs with
  | nil =>
      intro a _
      simp
  | cons x rest ih =>
      intro a hdet
      have hrest := ih a (fun y hy => hdet y (by simp [hy]))
      rw [List.countP_map] at hrest
      simp only [List.map_cons, List.countP_cons, List.length_cons]
      rw [satB_not_of_det (hdet x (by simp))]
      cases hs : satB x a <;> simp <;> omega

lemma exactlyK_true_iff (xs : List BExpr) (k : Int) (a : Assignment)
    (hdet : ∀ x ∈ xs, (evalB x a).isSome = true)
    (hk0 : 0 ≤ k) (hkn : k ≤ (xs.length : Int)) :
    satB (exactlyK xs k) a = true ↔ (xs.countP (fun e => satB e a) : Int) = k := by
  unfold exactlyK
  rw [if_neg (by omega : ¬ (k < 0 ∨ k > (xs.length : Int)))]
  by_cases hz : k = 0
  · rw [if_pos hz]
    rw [satB_of_eval (foldAnd_eval (xs.map .not) a (map_not_det hdet))]
    simp only [List.all_eq_true]
    constructor
    · intro hall
      have hc0 : xs.countP (fun e => satB e a) = 0 := by
        rw [List.countP_eq_zero]
        intro y hy
        have hne := hall (.not y) (List.mem_map_of_mem _ hy)
        rw [satB_not_of_det (hdet y hy)] at hne
        simp only [Bool.not_eq_true'] at hne
        simp [hne]
      omega
    · intro hcnt e he
      obtain ⟨y, hy, rfl⟩ := List.mem_map.mp he
      rw [satB_not_of_det (hdet y hy)]
      have hc0 : xs.countP (fun e => satB e a) = 0 := by omega
      rw [List.countP_eq_zero] at hc0
      have := hc0 y hy
      simp only [Bool.not_eq_true] at this
      simp [this]
  · by_cases hn : k = (xs.length : Int)
    · rw [if_neg hz, if_pos hn]
      rw [satB_of_eval (foldAnd_eval xs a hdet)]
      simp only [List.all_eq_true]
      constructor
      · intro hall
        have hlen : xs.countP (fun e => satB e a) = xs.length :=
          List.countP_eq_length.mpr hall
        omega
      · intro hcnt e he
        have hle : xs.countP (fun e => satB e a) ≤ xs.length := List.countP_le_length _
        have hlen : xs.countP (fun e => satB e a) = xs.length := by omega
        exact List.countP_eq_length.mp hlen e he
    · rw [if_neg hz, if_neg hn]
      rw [show satB (.and (atLeastK xs k) (atLeastK (xs.map .not) ((xs.length : Int) - k))) a =
          (satB (atLeastK xs k) a &&
            satB (atLeastK (xs.map .not) ((xs.length : Int) - k)) a) from satB_and _ _ a]
      have hle : xs.countP (fun e => satB e a) ≤ xs.length := List.countP_le_length _
      have hsum := countP_map_not_add xs a hdet
      rw [Bool.and_eq_true, atLeastK_true_iff xs k a hdet,
        atLeastK_true_iff _ _ a (map_not_det hdet)]
      constructor
      · rintro ⟨ha, hb⟩
        omega
      · intro h
        constructor <;> omega

/-! ## Claim theorems -/

/-- C1 (counterexample).  The claim states that whenever some complete
assignment satisfies all hard constraints, `solve` returns a
penalty-minimal, comparison-optimal assignment from among the
hard-satisfying complete assignments.  On the reachable solver `s1ce`
(`require((x == 0) | distinct([y]))` with `y` unregistered, `maximize(x)`)
the assignment `{x: 0}` satisfies the hard constraint, yet `solve` returns
`{x: 1}`, on which the hard constraint does not evaluate to `True` at all
(its evaluation raises and is swallowed), so the returned assignment is
not one of the hard-satisfying complete assignments. -/
theorem solve_optimal_counterexample :
    matchesVars s1ce.vars [("x", 0)] = true ∧ satisfiesAll s1ce.hard [("x", 0)] = true ∧
      solveRun s1ce = some (⟨0, .vec [1]⟩, [("x", 1)]) ∧
      satisfiesAll s1ce.hard [("x", 1)] = false := by
  decide

/-- C1 (amended).  If at least one complete assignment is consistent (no
hard constraint definitively false — the code's own three-valued check),
then `solve` returns a consistent complete assignment with its score, of
minimal penalty among all consistent complete assignments and, among
those, optimal under the declared comparison (lex: element-wise greater
sense-adjusted vector; sum: greater aggregate).  When every hard
constraint reads only registered variables, consistency of a complete
assignment coincides with satisfying every hard constraint, recovering the
original wording.  The `scoreReadsOK` hypothesis states that soft
constraints and objectives read only registered variables, which is what
`prefer`/`maximize`/`minimize` guarantee and what makes the Python scoring
total. -/
theorem solve_optimal (s : Solver) (_hscore : scoreReadsOK s)
    (hfeas : ∃ b, matchesVars s.vars b = true ∧ consistentB s.hard b = true) :
    ∃ a sc, solveRun s = some (sc, a) ∧ matchesVars s.vars a = true ∧
      consistentB s.hard a = true ∧ sc = scoreOf s a ∧
      ∀ b, matchesVars s.vars b = true → consistentB s.hard b = true →
        (scoreOf s a).pen ≤ (scoreOf s b).pen ∧
          ((scoreOf s b).pen = (scoreOf s a).pen →
            objGt (scoreOf s b).obj (scoreOf s a).obj = false) := by
  obtain ⟨a, sc, h1, h2, h3, h4, h5⟩ := solveRun_spec s hfeas
  refine ⟨a, sc, h1, h2, h3, h4, ?_⟩
  intro b hmb hcb
  have hb := h5 b hmb hcb
  rw [h4] at hb
  have hnb : ¬ ((scoreOf s b).pen < (scoreOf s a).pen ∨
      ((scoreOf s b).pen = (scoreOf s a).pen ∧
        objGt (scoreOf s b).obj (scoreOf s a).obj = true)) := by
    rw [← betterS_iff]
    simp [hb]
  push_neg at hnb
  refine ⟨hnb.1, ?_⟩
  intro hpe
  exact Bool.eq_false_iff.mpr (hnb.2 hpe)

/-- C1 (witness): the amended theorem applied to the concrete solver
`s1ce`, whose hypotheses hold by computation. -/
theorem solve_optimal_witness :
    (scoreReadsOK s1ce ∧
        ∃ b, matchesVars s1ce.vars b = true ∧ consistentB s1ce.hard b = true) ∧
      (∃ a sc, solveRun s1ce = some (sc, a) ∧ matchesVars s1ce.vars a = true ∧
        consistentB s1ce.hard a = true ∧ sc = scoreOf s1ce a ∧
        ∀ b, matchesVars s1ce.vars b = true → consistentB s1ce.hard b = true →
          (scoreOf s1ce a).pen ≤ (scoreOf s1ce b).pen ∧
            ((scoreOf s1ce b).pen = (scoreOf s1ce a).pen →
              objGt (scoreOf s1ce b).obj (scoreOf s1ce a).obj = false)) :=
  ⟨⟨by decide, ⟨[("x", 0)], by decide⟩⟩,
    solve_optimal s1ce (by decide) ⟨[("x", 0)], by decide⟩⟩

/-- C2 (counterexample).  The claim states that `all_solutions` (no limit,
no timeout) returns exactly the complete assignments that satisfy every
hard constraint.  On the reachable solver `s2ce` (no registered variables,
`require(at_least_one([]))`, which is the constant-false constraint),
`all_solutions` returns one entry whose assignment is the empty
assignment, although that assignment does not satisfy the hard
constraint: with zero variables the consistency check never runs. -/
theorem all_solutions_counterexample :
    allSolutionsRun s2ce = [([], ⟨0, .vec []⟩)] ∧ satisfiesAll s2ce.hard [] = false := by
  decide

/-- C2 (amended).  Provided no hard constraint is already definitively
false on the empty assignment (in particular whenever at least one
feasible assignment exists), `all_solutions` without limit or timeout
returns exactly the complete assignments on which no hard constraint
evaluates definitively to false, in the DFS order induced by registration
order and per-variable domain order; when every domain is duplicate-free
the entries are pairwise distinct (each assignment exactly once).  The S5
scenario (x, y ∈ [1..3], x + y = 4, limit 2) returns exactly the two
expected assignments in order. -/
theorem all_solutions_exhaustive (s : Solver) (_hscore : scoreReadsOK s)
    (hroot : consistentB s.hard [] = true) (hdom : ∀ v ∈ s.vars, v.dom.Nodup) :
    allSolutionsRun s =
        ((enumAll s.vars []).filter (fun b => consistentB s.hard b)).map (entryOf s) ∧
      (allSolutionsRun s).Nodup ∧
      (allSolutionsT s5solver (some 2) none 0).map Prod.fst =
        [[("x", 1), ("y", 3)], [("x", 2), ("y", 2)]] := by
  have heq : allSolutionsRun s =
      ((enumAll s.vars []).filter (fun b => consistentB s.hard b)).map (entryOf s) := by
    rw [allSolutionsRun, btL_none_eq, btAll_eq_filter s.hard s.vars [] hroot]
    rw [List.nil_append]
  refine ⟨heq, ?_, by decide⟩
  rw [heq]
  have hinj : Function.Injective (entryOf s) := by
    intro b1 b2 h
    exact congrArg Prod.fst h
  exact List.Nodup.map hinj (List.Nodup.filter _ (enumAll_nodup s.vars hdom []))

/-- C2 (witness): the amended theorem applied to the S5 solver. -/
theorem all_solutions_exhaustive_witness :
    (scoreReadsOK s5solver ∧ consistentB s5solver.hard [] = true ∧
        ∀ v ∈ s5solver.vars, v.dom.Nodup) ∧
      (allSolutionsRun s5solver =
          ((enumAll s5solver.vars []).filter
            (fun b => consistentB s5solver.hard b)).map (entryOf s5solver) ∧
        (allSolutionsRun s5solver).Nodup ∧
        (allSolutionsT s5solver (some 2) none 0).map Prod.fst =
          [[("x", 1), ("y", 3)], [("x", 2), ("y", 2)]]) :=
  ⟨⟨by decide, by decide, by decide⟩,
    all_solutions_exhaustive s5solver (by decide) (by decide) (by decide)⟩

/-- C3 (counterexample).  The claim states that `distinct(vs)` carries as
its free set exactly the variables of `vs`, and that
`require(distinct(vs))` registers every domain-bound variable of `vs`.
In the source, `distinct` builds its `BoolExpr` without passing `vars=`,
so its free set is empty: for `vs = [x]` with `x` bound to `[1, 2]`, the
free set is `[]`, not `[x]`, and `require` on a fresh solver registers
nothing. -/
theorem distinct_free_set_counterexample :
    varsB (.distinctV [⟨"x", some [1, 2]⟩]) = [] ∧
      varsB (.distinctV [⟨"x", some [1, 2]⟩]) ≠ [⟨"x", some [1, 2]⟩] ∧
      requireS ⟨[], [], [], [], .lex⟩ (.distinctV [⟨"x", some [1, 2]⟩]) none =
        .ok ⟨[], [("distinct", .distinctV [⟨"x", some [1, 2]⟩])], [], [], .lex⟩ := by
  decide

/-- C3 (amended).  The boolean expression returned by `distinct(vs)`
carries an EMPTY free set (the source constructs it without propagating
its variables), so installing `require(distinct(vs))` appends the hard
constraint (named "distinct" by default) but registers none of the
variables of `vs`, regardless of their domains. -/
theorem distinct_free_set_empty (vs : List Var0) (s : Solver) (nm : Option String) :
    varsB (.distinctV vs) = [] ∧
      requireS s (.distinctV vs) nm =
        .ok { s with hard := s.hard ++ [(nm.getD "distinct", .distinctV vs)] } :=
  ⟨rfl, rfl⟩

/-- C4 (counterexample).  The claim states that both `solve` and
`all_solutions` reset the failed-constraints set and the best-score slot,
so the observable values afterwards depend only on that invocation.  On
the solver `s4ce` a `solve` call records the failure of `"c"`.  A
subsequent `all_solutions(timeout=0)` performs no search at all, yet the
failed set afterwards still contains `"c"` (and `why_unsat` reports it),
whereas the same invocation from a fresh state leaves the set empty: the
observable value depends on the earlier invocation. -/
theorem state_reset_counterexample :
    (doSolve s4ce ⟨∅, none⟩).2.failed = {"c"} ∧
      (doAllSolutions s4ce (some 0) 0 ⟨{"c"}, none⟩).2.failed = {"c"} ∧
      (doAllSolutions s4ce (some 0) 0 ⟨∅, none⟩).2.failed = ∅ ∧
      whyUnsatL (doAllSolutions s4ce (some 0) 0 ⟨{"c"}, none⟩).2.failed = ["c"] := by
  refine ⟨by decide, by decide, by decide, ?_⟩
  have h : (doAllSolutions s4ce (some 0) 0 ⟨{"c"}, none⟩).2.failed =
      ({"c"} : Finset String) := by decide
  rw [h, whyUnsatL, Finset.sort_singleton]

/-- C4 (amended).  `solve` resets both the failed-constraints set and the
best slot at the start of the invocation (its outcome is independent of
the incoming state); `all_solutions` resets neither: the best slot is left
untouched and the incoming failed set is only ever extended, so values
observable after `all_solutions` may reflect earlier invocations. -/
theorem solve_resets_allsolutions_does_not (s : Solver) (st1 st2 st : InvState)
    (tmo : Option ℚ) (e : ℚ) :
    doSolve s st1 = doSolve s st2 ∧
      (doAllSolutions s tmo e st).2.best = st.best ∧
      st.failed ⊆ (doAllSolutions s tmo e st).2.failed := by
  refine ⟨rfl, ?_, ?_⟩
  · by_cases hp : expired tmo e = true <;> simp [doAllSolutions, hp]
  · by_cases hp : expired tmo e = true
    · simp [doAllSolutions, hp]
    · simp only [doAllSolutions, hp, Bool.false_eq_true, if_false]
      exact btFailed_mono s.hard s.vars [] st.failed

/-- C5 (counterexample).  The claim states that `Var << collection`
deduplicates while preserving iteration order, and in particular that a
list input with a repeated value yields a domain containing it exactly
once.  The source performs `list(spec)` with no deduplication:
`Var("x") << [1, 1]` yields the domain `[1, 1]`, containing `1` twice. -/
theorem lshift_no_dedup_counterexample :
    (lshiftD ⟨"x", none⟩ (.coll [1, 1])).dom = [1, 1] ∧
      (lshiftD ⟨"x", none⟩ (.coll [1, 1])).dom.count 1 ≠ 1 := by
  decide

/-- C5 (amended).  Binding a domain from a list/set/range copies the
input's iteration sequence verbatim (`list(spec)`): a Python set input is
already duplicate-free, but duplicates in a list input are preserved, so
no deduplication is performed by the binding itself. -/
theorem lshift_copies_iteration_order (v : Var0) (l : List Int) :
    (lshiftD v (.coll l)).domain = some l ∧ (lshiftD v (.coll l)).dom = l :=
  ⟨rfl, rfl⟩

/-- C6.  The part of the claim that matches the source: with the step
omitted, `in_range(lo, hi)` binds the domain to the integer sequence
`lo, lo+1, …, hi`.  (The optional positive `step` parameter of the claim
does not exist in the source's `Var.in_range`, although the repository's
own tests call it — see the code-bug record.) -/
theorem in_range_integer_interval (v : Var0) (lo hi x : Int) :
    x ∈ (inRange v lo hi).dom ↔ lo ≤ x ∧ x ≤ hi := by
  have hdom : (inRange v lo hi).dom = rangeInts lo hi := rfl
  rw [hdom, rangeInts]
  constructor
  · intro hx
    obtain ⟨i, hi2, hfx⟩ := List.mem_map.mp hx
    rw [List.mem_range] at hi2
    omega
  · rintro ⟨h1, h2⟩
    apply List.mem_map.mpr
    refine ⟨(x - lo).toNat, ?_, ?_⟩
    · rw [List.mem_range]
      omega
    · omega

/-- C8.  A non-positive timeout is already expired at the first check of
the search (elapsed time is nonnegative): `solve(timeout=0)` raises the
timeout error without producing a solution, and `all_solutions(timeout=0)`
catches it and returns the empty list. -/
theorem timeout_nonpositive (s : Solver) (t e : ℚ) (lim : Option Nat)
    (ht : t ≤ 0) (he : 0 ≤ e) :
    solveT s (some t) e = .err .timeout ∧ allSolutionsT s lim (some t) e = [] := by
  have hexp : expired (some t) e = true := by
    simp only [expired, ge_iff_le, decide_eq_true_eq]
    exact ht.trans he
  constructor
  · simp [solveT, hexp]
  · simp [allSolutionsT, hexp]

/-- C8 (witness): the theorem applied at timeout 0 and elapsed time 0 on
the concrete solver `s4ce`. -/
theorem timeout_nonpositive_witness :
    ((0 : ℚ) ≤ 0 ∧ (0 : ℚ) ≤ 0) ∧
      (solveT s4ce (some 0) 0 = .err .timeout ∧ allSolutionsT s4ce none (some 0) 0 = []) :=
  ⟨⟨le_refl 0, le_refl 0⟩, timeout_nonpositive s4ce 0 0 none (le_refl 0) (le_refl 0)⟩

/-- C7.  For every list of boolean expressions, every assignment that
determines each of them, and every integer `k`: (1) for `0 ≤ k ≤ n`,
`exactly_k(xs, k)` is satisfied iff `at_least_k(xs, k)` and
`at_least_k(¬xs, n − k)` both are; (2) `exactly_k(xs, 0)` is equivalent to
the conjunction of the negations and `exactly_k(xs, n)` to the conjunction
of `xs`; (3) `at_least_k(xs, k)` is true for every `k ≤ 0` and false for
every `k > n`. -/
theorem cardinality_relations (xs : List BExpr) (k : Int) (a : Assignment)
    (hdet : ∀ x ∈ xs, (evalB x a).isSome = true) :
    (0 ≤ k → k ≤ (xs.length : Int) →
      (satB (exactlyK xs k) a = true ↔
        satB (atLeastK xs k) a = true ∧
          satB (atLeastK (xs.map .not) ((xs.length : Int) - k)) a = true)) ∧
      satB (exactlyK xs 0) a = satB (foldAnd (xs.map .not)) a ∧
      satB (exactlyK xs (xs.length : Int)) a = satB (foldAnd xs) a ∧
      (k ≤ 0 → satB (atLeastK xs k) a = true) ∧
      ((xs.length : Int) < k → satB (atLeastK xs k) a = false) := by
  refine ⟨?_, ?_, ?_, ?_, ?_⟩
  · intro hk0 hkn
    have hle : xs.countP (fun e => satB e a) ≤ xs.length := List.countP_le_length _
    have hsum := countP_map_not_add xs a hdet
    rw [exactlyK_true_iff xs k a hdet hk0 hkn, atLeastK_true_iff xs k a hdet,
      atLeastK_true_iff _ _ a (map_not_det hdet)]
    constructor
    · intro h
      constructor <;> omega
    · rintro ⟨h1, h2⟩
      omega
  · have hexpr : exactlyK xs 0 = foldAnd (xs.map .not) := by
      unfold exactlyK
      rw [if_neg (by omega : ¬ ((0 : Int) < 0 ∨ (0 : Int) > (xs.length : Int))),
        if_pos rfl]
    rw [hexpr]
  · have hexpr : exactlyK xs (xs.length : Int) = foldAnd xs := by
      unfold exactlyK
      rw [if_neg (by omega : ¬ ((xs.length : Int) < 0 ∨
        (xs.length : Int) > (xs.length : Int)))]
      by_cases hz : (xs.length : Int) = 0
      · rw [if_pos hz]
        have hnil : xs = [] := List.length_eq_zero.mp (by exact_mod_cast hz)
        subst hnil
        rfl
      · rw [if_neg hz, if_pos rfl]
    rw [hexpr]
  · intro hk
    unfold atLeastK
    rw [if_pos hk]
    rfl
  · intro hk
    unfold atLeastK
    rw [if_neg (by omega), if_pos (by omega)]
    rfl

/-- C7 (witness): the theorem applied to a concrete list and assignment. -/
theorem cardinality_relations_witness :
    (∀ x ∈ [BExpr.btrue, BExpr.bfalse, BExpr.btrue], (evalB x [] ).isSome = true) ∧
      ((0 ≤ (2 : Int) → (2 : Int) ≤ (([BExpr.btrue, BExpr.bfalse, BExpr.btrue].length : Int)) →
        (satB (exactlyK [BExpr.btrue, BExpr.bfalse, BExpr.btrue] 2) [] = true ↔
          satB (atLeastK [BExpr.btrue, BExpr.bfalse, BExpr.btrue] 2) [] = true ∧
            satB (atLeastK ([BExpr.btrue, BExpr.bfalse, BExpr.btrue].map .not)
              (([BExpr.btrue, BExpr.bfalse, BExpr.btrue].length : Int) - 2)) [] = true)) ∧
        satB (exactlyK [BExpr.btrue, BExpr.bfalse, BExpr.btrue] 0) [] =
          satB (foldAnd ([BExpr.btrue, BExpr.bfalse, BExpr.btrue].map .not)) [] ∧
        satB (exactlyK [BExpr.btrue, BExpr.bfalse, BExpr.btrue]
            (([BExpr.btrue, BExpr.bfalse, BExpr.btrue].length : Int))) [] =
          satB (foldAnd [BExpr.btrue, BExpr.bfalse, BExpr.btrue]) [] ∧
        ((2 : Int) ≤ 0 → satB (atLeastK [BExpr.btrue, BExpr.bfalse, BExpr.btrue] 2) [] = true) ∧
        (([BExpr.btrue, BExpr.bfalse, BExpr.btrue].length : Int) < 2 →
          satB (atLeastK [BExpr.btrue, BExpr.bfalse, BExpr.btrue] 2) [] = false)) :=
  ⟨by decide, cardinality_relations [BExpr.btrue, BExpr.bfalse, BExpr.btrue] 2 [] (by decide)⟩

/-- C9 (code bug).  The claim — the Z3-backed `solve` returns a solution
whose penalty and objective score equal the native solver's — restates the
spec's backend contract (§4.7, invariant 9), but `Z3Solver.solve`'s
lex-mode result construction drops the sense factor
(`vals = [model_value(expr.eval(env)) for expr, _, _ in self.objectives]`,
z3solver.py line 170), while the native solver returns
`[sense * expr.eval(a)]`.  On `x ∈ {1, 2}` with `minimize(x)` both
backends select `x = 1` (the engine's model is the unique contract-optimal
assignment) and the penalties agree, yet the native result carries the
sense-adjusted vector `[-1]` while the adapter returns the raw `[1]`.
`Z3Solver.all_solutions` (line 209) does apply the sense, confirming the
one-line slip. -/
theorem backend_lex_sense_dropped :
    solveRun s9min = some (⟨0, .vec [-1]⟩, [("x", 1)]) ∧
      z3Optimal s9min [("x", 1)] ∧
      z3ScoreOf s9min [("x", 1)] = ⟨0, .vec [1]⟩ ∧
      (z3ScoreOf s9min [("x", 1)]).pen = (0 : Int) ∧
      (z3ScoreOf s9min [("x", 1)]).obj ≠ ObjVal.vec [-1] := by
  decide

/-- C10.  `why_unsat` returns `sorted(set)`: after a `solve` or an
`all_solutions` invocation its output is a duplicate-free list in
ascending string order whose members are exactly the recorded failed
names, and recording order cannot influence it — recording any
permutation of the same failure names yields the same output. -/
theorem why_unsat_sorted_dedup (s : Solver) (st : InvState) (tmo : Option ℚ) (e : ℚ) :
    (whyUnsatL (doSolve s st).2.failed).Sorted (· ≤ ·) ∧
      (whyUnsatL (doSolve s st).2.failed).Nodup ∧
      (∀ n, n ∈ whyUnsatL (doSolve s st).2.failed ↔ n ∈ (doSolve s st).2.failed) ∧
      (whyUnsatL (doAllSolutions s tmo e st).2.failed).Sorted (· ≤ ·) ∧
      (whyUnsatL (doAllSolutions s tmo e st).2.failed).Nodup ∧
      (∀ n, n ∈ whyUnsatL (doAllSolutions s tmo e st).2.failed ↔
        n ∈ (doAllSolutions s tmo e st).2.failed) ∧
      ∀ (l1 l2 : List String), l1.Perm l2 →
        whyUnsatL (recordFold l1) = whyUnsatL (recordFold l2) := by
  refine ⟨Finset.sort_sorted _ _, Finset.sort_nodup _ _, fun n => Finset.mem_sort _,
    Finset.sort_sorted _ _, Finset.sort_nodup _ _, fun n => Finset.mem_sort _, ?_⟩
  intro l1 l2 h
  rw [recordFold_perm h]

/-- C10 (witness): the permutation-independence clause applied to two
concrete recording orders. -/
theorem why_unsat_sorted_dedup_witness :
    (["b", "a"].Perm ["a", "b"]) ∧
      whyUnsatL (recordFold ["b", "a"]) = whyUnsatL (recordFold ["a", "b"]) :=
  ⟨by decide,
    (why_unsat_sorted_dedup s4ce ⟨∅, none⟩ none 0).2.2.2.2.2.2 ["b", "a"] ["a", "b"] (by decide)⟩

end LogicDSL
